import Mathlib

/-!
# Verification of the quickjs-debugger transport, session and inspect layers

Shallow embedding of the repository's framed JSON transport
(`connection.ts`: `addMessageListener`, `QuickJSDebugConnection`), the
session layer (`session.ts`: `QuickJSVariable`, `QuickJSHandle.inspect`,
`QuickJSDebugSession`) and the Minecraft-extended session
(`minecraft.ts`: `MinecraftDebugSession`).

Wire bytes are modelled as `List Nat` (each element a byte value).
JSON values are modelled by the inductive `Json`; strings inside JSON are
sequences of Unicode scalar values (`List Nat`).  Numbers are restricted to
integers: IEEE-754 floating point is not shallow-embeddable, and none of the
verified properties depend on non-integer numerals.
-/

namespace QJSD

/-! ## Bytes, digits and small scanners -/

/-- JSON/JS whitespace bytes (space, tab, LF, CR). -/
def isWsByte (b : Nat) : Bool :=
  b = 32 || b = 9 || b = 10 || b = 13

/-- ASCII decimal digit. -/
def isDigitByte (b : Nat) : Bool :=
  48 ≤ b && b ≤ 57

/-- Value of an ASCII hex digit (`0-9a-fA-F`). -/
def hexDigitVal (b : Nat) : Option Nat :=
  if 48 ≤ b && b ≤ 57 then some (b - 48)
  else if 97 ≤ b && b ≤ 102 then some (b - 87)
  else if 65 ≤ b && b ≤ 70 then some (b - 55)
  else none

/-- Lowercase hex digit byte for a value `< 16`, as produced by
`Number.prototype.toString(16)`. -/
def hexDigitByte (n : Nat) : Nat :=
  if n < 10 then 48 + n else 87 + n

/-- Most-significant-first hex digit values of `n` (`n.toString(16)` digits);
the fuel argument only bounds recursion depth and any `fuel ≥ n` computes the
digits. -/
def natHexDigitsAux : Nat → Nat → List Nat
  | 0, n => [n]
  | fuel + 1, n => if n < 16 then [n] else natHexDigitsAux fuel (n / 16) ++ [n % 16]

/-- Most-significant-first hex digit values of `n` (`n.toString(16)` digits). -/
def natHexDigits (n : Nat) : List Nat :=
  natHexDigitsAux n n

/-- Bytes of `n.toString(16)` (lowercase). -/
def natHexBytes (n : Nat) : List Nat :=
  (natHexDigits n).map hexDigitByte

/-- Bytes of `n.toString(16).padStart(8, '0')`, the 8-byte frame-length
header written by `QuickJSDebugConnection.sendMessage`. -/
def padHex8 (n : Nat) : List Nat :=
  List.replicate (8 - (natHexBytes n).length) 48 ++ natHexBytes n

/-- Most-significant-first decimal digit values of `n`; any `fuel ≥ n`
computes the digits. -/
def natDecDigitsAux : Nat → Nat → List Nat
  | 0, n => [n]
  | fuel + 1, n => if n < 10 then [n] else natDecDigitsAux fuel (n / 10) ++ [n % 10]

/-- Most-significant-first decimal digit values of `n`. -/
def natDecDigits (n : Nat) : List Nat :=
  natDecDigitsAux n n

/-- Bytes of the decimal rendering of `n` (`String(n)` for a natural). -/
def natDecBytes (n : Nat) : List Nat :=
  (natDecDigits n).map (48 + ·)

/-- Bytes of the decimal rendering of an integer (`String(i)` /
`JSON.stringify` of an integral number). -/
def intDecBytes (i : Int) : List Nat :=
  match i with
  | Int.ofNat n => natDecBytes n
  | Int.negSucc n => 45 :: natDecBytes (n + 1)

/-- Fold most-significant-first digit values in base `base`. -/
def digitsToNat (base : Nat) (ds : List Nat) : Nat :=
  ds.foldl (fun acc d => acc * base + d) 0

/-! ## UTF-8 encoding of Unicode scalar values -/

/-- UTF-8 bytes of one Unicode scalar value. -/
def utf8EncodeScalar (n : Nat) : List Nat :=
  if n < 0x80 then [n]
  else if n < 0x800 then [0xC0 + n / 64, 0x80 + n % 64]
  else if n < 0x10000 then [0xE0 + n / 4096, 0x80 + n / 64 % 64, 0x80 + n % 64]
  else [0xF0 + n / 262144, 0x80 + n / 4096 % 64, 0x80 + n / 64 % 64, 0x80 + n % 64]

/-- A Unicode scalar value: in range and not a surrogate.  Mirrors the set of
code points a well-formed JS string (and hence a JSON string on the wire)
can denote. -/
def scalarOK (n : Nat) : Bool :=
  (n < 0xD800 || (0xDFFF < n && n < 0x110000))

/-! ## JSON data model

`Json` models the JSON values exchanged on the wire.  Strings are sequences
of Unicode scalar values; object fields are ordered association lists
(mirroring JS object insertion order). -/

inductive Json where
  | null : Json
  | bool (b : Bool) : Json
  | num (n : Int) : Json
  | str (s : List Nat) : Json
  | arr (elems : List Json) : Json
  | obj (fields : List (List Nat × Json)) : Json
deriving Repr

/-- No duplicate keys among object fields (a JS object cannot hold
duplicate keys). -/
def noDupKeys : List (List Nat × Json) → Bool
  | [] => true
  | (k, _) :: fs => !(fs.any fun p => p.1 == k) && noDupKeys fs

mutual

/-- Well-formedness of a `Json` value: every string is a sequence of
Unicode scalar values, and object keys are distinct. -/
def jsonWF : Json → Bool
  | .null => true
  | .bool _ => true
  | .num _ => true
  | .str s => s.all scalarOK
  | .arr l => jsonArrWF l
  | .obj l => noDupKeys l && jsonObjWF l

/-- Well-formedness of the elements of a JSON array. -/
def jsonArrWF : List Json → Bool
  | [] => true
  | e :: es => jsonWF e && jsonArrWF es

/-- Well-formedness of the fields of a JSON object. -/
def jsonObjWF : List (List Nat × Json) → Bool
  | [] => true
  | (k, v) :: fs => k.all scalarOK && jsonWF v && jsonObjWF fs

end

/-! ## JSON.stringify model

`JSON.stringify` escapes `"` and `\`, uses the short escapes
`\b \t \n \f \r`, escapes the remaining control characters as `\u00xx`
(lowercase hex), leaves every other code point unescaped, and the result is
UTF-8 encoded onto the wire by `Buffer.from`. -/

/-- Wire bytes for one scalar of a JSON string. -/
def escScalar (n : Nat) : List Nat :=
  if n = 34 then [92, 34]
  else if n = 92 then [92, 92]
  else if n = 8 then [92, 98]
  else if n = 9 then [92, 116]
  else if n = 10 then [92, 110]
  else if n = 12 then [92, 102]
  else if n = 13 then [92, 114]
  else if n < 32 then [92, 117, 48, 48, hexDigitByte (n / 16), hexDigitByte (n % 16)]
  else utf8EncodeScalar n

/-- Wire bytes of a JSON string body (without the surrounding quotes). -/
def escString (s : List Nat) : List Nat :=
  (s.map escScalar).flatten

mutual

/-- `JSON.stringify` composed with UTF-8 encoding: the exact bytes
`Buffer.from(JSON.stringify(v))` puts on the wire. -/
def stringifyJson : Json → List Nat
  | .null => [110, 117, 108, 108]
  | .bool true => [116, 114, 117, 101]
  | .bool false => [102, 97, 108, 115, 101]
  | .num i => intDecBytes i
  | .str s => 34 :: escString s ++ [34]
  | .arr l => 91 :: stringifyElems l ++ [93]
  | .obj l => 123 :: stringifyFields l ++ [125]

/-- Comma-separated serialisation of array elements. -/
def stringifyElems : List Json → List Nat
  | [] => []
  | [e] => stringifyJson e
  | e :: es => stringifyJson e ++ 44 :: stringifyElems es

/-- Comma-separated serialisation of object fields (`"key":value`). -/
def stringifyFields : List (List Nat × Json) → List Nat
  | [] => []
  | [(k, v)] => 34 :: escString k ++ 34 :: 58 :: stringifyJson v
  | (k, v) :: fs => (34 :: escString k ++ 34 :: 58 :: stringifyJson v) ++ 44 :: stringifyFields fs

end

/-! ## JSON.parse model

`handleMessage` runs `JSON.parse(message.toString())`: UTF-8 decoding of
the body followed by JSON parsing.  The model parser below works directly
on bytes, decoding UTF-8 inside string literals.  It accepts exactly the
JSON grammar except that non-integer numerals (fraction/exponent) fail:
the `Json` model carries only integer numbers. -/

/-- Drop leading JSON whitespace. -/
def skipWs : List Nat → List Nat
  | [] => []
  | b :: r => if isWsByte b then skipWs r else b :: r

/-- Longest prefix of decimal-digit bytes, and the remainder. -/
def takeDigits : List Nat → List Nat × List Nat
  | [] => ([], [])
  | b :: r =>
    if isDigitByte b then
      let p := takeDigits r
      (b :: p.1, p.2)
    else ([], b :: r)

/-- The bytes after a serialised number do not extend the numeral: the next
byte (if any) is not a digit, `.`, `e` or `E`.  Holds for every context a
number occupies inside a framed message (followed by `,`, `]`, a closing
brace, whitespace or end of input). -/
def numStop : List Nat → Bool
  | [] => true
  | b :: _ => !(isDigitByte b || b == 46 || b == 101 || b == 69)

/-- Parse a JSON number token.  Leading zeros are rejected as in the JSON
grammar; a following `.`, `e` or `E` (a non-integer numeral) fails in this
integer-restricted model. -/
def parseNumBytes (bs : List Nat) : Option (Int × List Nat) :=
  let sp : Bool × List Nat := match bs with
    | [] => (false, [])
    | b :: r => if b = 45 then (true, r) else (false, b :: r)
  let p := takeDigits sp.2
  if p.1 = [] then none
  else if p.1.length > 1 && p.1.headI = 48 then none
  else if numStop p.2 then
    let v : Int := Int.ofNat (digitsToNat 10 (p.1.map (· - 48)))
    some (if sp.1 then -v else v, p.2)
  else none

/-- Scalar value of a single-character escape `\e`, if `e` names one. -/
def escCodeVal (e : Nat) : Option Nat :=
  if e = 34 || e = 92 || e = 47 then some e
  else if e = 98 then some 8
  else if e = 116 then some 9
  else if e = 110 then some 10
  else if e = 102 then some 12
  else if e = 114 then some 13
  else none

/-- Read four hex digits (the `XXXX` of a `\uXXXX` escape). -/
def hex4Val : List Nat → Option (Nat × List Nat)
  | h1 :: h2 :: h3 :: h4 :: r =>
    match hexDigitVal h1, hexDigitVal h2, hexDigitVal h3, hexDigitVal h4 with
    | some v1, some v2, some v3, some v4 =>
      some (((v1 * 16 + v2) * 16 + v3) * 16 + v4, r)
    | _, _, _, _ => none
  | _ => none

/-- Read a `\uGGGG` escape denoting a low surrogate, if the input starts
with one. -/
def lowSurrogate (bs : List Nat) : Option (Nat × List Nat) :=
  match bs with
  | 92 :: 117 :: r =>
    match hex4Val r with
    | some (u2, r3) => if 0xDC00 ≤ u2 && u2 < 0xE000 then some (u2, r3) else none
    | none => none
  | _ => none

/-- A UTF-8 continuation byte. -/
def utf8Cont (b : Nat) : Bool :=
  0x80 ≤ b && b < 0xC0

/-- Backslash-escape handling of `JSON.parse`, positioned after the
backslash; `next` continues parsing the rest of the literal. -/
def parseStrEsc (next : List Nat → Option (List Nat × List Nat)) :
    List Nat → Option (List Nat × List Nat)
  | [] => none
  | e :: r1 =>
    match escCodeVal e with
    | some c => (next r1).map fun p => (c :: p.1, p.2)
    | none =>
      if e = 117 then
        match hex4Val r1 with
        | some (u, r2) =>
          if 0xD800 ≤ u && u < 0xDC00 then
            match lowSurrogate r2 with
            | some (u2, r3) =>
              (next r3).map fun p =>
                ((0x10000 + (u - 0xD800) * 1024 + (u2 - 0xDC00)) :: p.1, p.2)
            | none => (next r2).map fun p => (u :: p.1, p.2)
          else (next r2).map fun p => (u :: p.1, p.2)
        | none => none
      else none

/-- Continuation of a two-byte UTF-8 sequence whose lead byte is `b`. -/
def parseStrMb2 (next : List Nat → Option (List Nat × List Nat)) (b : Nat) :
    List Nat → Option (List Nat × List Nat)
  | b1 :: r1 =>
    if utf8Cont b1 then
      (next r1).map fun p => (((b - 0xC0) * 64 + (b1 - 0x80)) :: p.1, p.2)
    else none
  | [] => none

/-- Continuation of a three-byte UTF-8 sequence whose lead byte is `b`. -/
def parseStrMb3 (next : List Nat → Option (List Nat × List Nat)) (b : Nat) :
    List Nat → Option (List Nat × List Nat)
  | b1 :: b2 :: r1 =>
    if utf8Cont b1 && utf8Cont b2 then
      (next r1).map fun p =>
        (((b - 0xE0) * 4096 + (b1 - 0x80) * 64 + (b2 - 0x80)) :: p.1, p.2)
    else none
  | _ => none

/-- Continuation of a four-byte UTF-8 sequence whose lead byte is `b`. -/
def parseStrMb4 (next : List Nat → Option (List Nat × List Nat)) (b : Nat) :
    List Nat → Option (List Nat × List Nat)
  | b1 :: b2 :: b3 :: r1 =>
    if utf8Cont b1 && (utf8Cont b2 && utf8Cont b3) then
      (next r1).map fun p =>
        (((b - 0xF0) * 262144 + (b1 - 0x80) * 4096 + (b2 - 0x80) * 64 + (b3 - 0x80)) :: p.1, p.2)
    else none
  | _ => none

/-- One step of string-body parsing at byte `b`, with `r` the remaining
bytes and `next` the continuation for the rest of the literal. -/
def parseStrCons (next : List Nat → Option (List Nat × List Nat)) (b : Nat)
    (r : List Nat) : Option (List Nat × List Nat) :=
  if b = 34 then some ([], r)
  else if b = 92 then parseStrEsc next r
  else if b < 32 then none
  else if b < 0x80 then (next r).map fun p => (b :: p.1, p.2)
  else if b < 0xC2 then none
  else if b < 0xE0 then parseStrMb2 next b r
  else if b < 0xF0 then parseStrMb3 next b r
  else if b < 0xF8 then parseStrMb4 next b r
  else none

/-- Parse the body of a JSON string literal, positioned after the opening
quote; returns the decoded scalar values and the bytes following the
closing quote.  Mirrors `JSON.parse` escape handling (named escapes,
`\uXXXX` with surrogate-pair combining) composed with the UTF-8 decoding
performed by `Buffer.prototype.toString`; byte sequences that are not
valid UTF-8 fail.  The fuel argument only bounds recursion: each step
consumes at least one input byte and produces at most one scalar, so any
fuel larger than the number of scalars in the literal gives the parse. -/
def parseStrBody : Nat → List Nat → Option (List Nat × List Nat)
  | 0, _ => none
  | _, [] => none
  | fuel + 1, b :: r => parseStrCons (parseStrBody fuel) b r

/-- Array continuation of `JSON.parse` after `[`, applied to the
whitespace-stripped remaining bytes; `pe` parses the element list. -/
def parseValArr (pe : List Nat → Option (List Json × List Nat)) :
    List Nat → Option (Json × List Nat)
  | [] => (pe []).map fun p => (.arr p.1, p.2)
  | b1 :: r1 =>
    if b1 = 93 then some (.arr [], r1)
    else (pe (b1 :: r1)).map fun p => (.arr p.1, p.2)

/-- Object continuation of `JSON.parse` after `{`, applied to the
whitespace-stripped remaining bytes; `pf` parses the field list. -/
def parseValObj (pf : List Nat → Option (List (List Nat × Json) × List Nat)) :
    List Nat → Option (Json × List Nat)
  | [] => (pf []).map fun p => (.obj p.1, p.2)
  | b1 :: r1 =>
    if b1 = 125 then some (.obj [], r1)
    else (pf (b1 :: r1)).map fun p => (.obj p.1, p.2)

/-- One value-parsing step at first byte `b` with remaining bytes `r`;
`pe`/`pf` continue into array elements and object fields. -/
def parseValCons (pe : List Nat → Option (List Json × List Nat))
    (pf : List Nat → Option (List (List Nat × Json) × List Nat))
    (b : Nat) (r : List Nat) : Option (Json × List Nat) :=
  if b = 110 then
    match r with
    | 117 :: 108 :: 108 :: r1 => some (.null, r1)
    | _ => none
  else if b = 116 then
    match r with
    | 114 :: 117 :: 101 :: r1 => some (.bool true, r1)
    | _ => none
  else if b = 102 then
    match r with
    | 97 :: 108 :: 115 :: 101 :: r1 => some (.bool false, r1)
    | _ => none
  else if b = 34 then
    (parseStrBody (r.length + 1) r).map fun p => (.str p.1, p.2)
  else if b = 45 || isDigitByte b then
    (parseNumBytes (b :: r)).map fun p => (.num p.1, p.2)
  else if b = 91 then parseValArr pe (skipWs r)
  else if b = 123 then parseValObj pf (skipWs r)
  else none

/-- Value parsing applied to the whitespace-stripped input. -/
def parseValTop (pe : List Nat → Option (List Json × List Nat))
    (pf : List Nat → Option (List (List Nat × Json) × List Nat)) :
    List Nat → Option (Json × List Nat)
  | [] => none
  | b :: r => parseValCons pe pf b r

/-- After an array element `v`: a comma continues with the next element, a
closing bracket ends the array. -/
def parseElemsTail (pe : List Nat → Option (List Json × List Nat)) (v : Json) :
    List Nat → Option (List Json × List Nat)
  | 44 :: r1 => (pe r1).map fun p => (v :: p.1, p.2)
  | 93 :: r1 => some ([v], r1)
  | _ => none

/-- After an object field `(k, v)`: a comma continues with the next field,
a closing brace ends the object. -/
def parseFieldsTail (pf : List Nat → Option (List (List Nat × Json) × List Nat))
    (k : List Nat) (v : Json) :
    List Nat → Option (List (List Nat × Json) × List Nat)
  | 44 :: r4 => (pf r4).map fun p => ((k, v) :: p.1, p.2)
  | 125 :: r4 => some ([(k, v)], r4)
  | _ => none

/-- After an object key `k`: a colon is followed by the field value. -/
def parseFieldsColon (pv : List Nat → Option (Json × List Nat))
    (pf : List Nat → Option (List (List Nat × Json) × List Nat)) (k : List Nat) :
    List Nat → Option (List (List Nat × Json) × List Nat)
  | 58 :: r2 =>
    match pv r2 with
    | some (v, r3) => parseFieldsTail pf k v (skipWs r3)
    | none => none
  | _ => none

/-- Field parsing applied to the whitespace-stripped input: a quoted key,
then colon and value. -/
def parseFieldsTop (pv : List Nat → Option (Json × List Nat))
    (pf : List Nat → Option (List (List Nat × Json) × List Nat)) :
    List Nat → Option (List (List Nat × Json) × List Nat)
  | 34 :: r =>
    match parseStrBody (r.length + 1) r with
    | some (k, r1) => parseFieldsColon pv pf k (skipWs r1)
    | none => none
  | _ => none

mutual

/-- Parse one JSON value.  `fuel` bounds the recursion and is decremented on
every nested call; any fuel at least the needed amount (`needValue`)
produces the same result. -/
def parseValue : Nat → List Nat → Option (Json × List Nat)
  | 0, _ => none
  | fuel + 1, bytes => parseValTop (parseElems fuel) (parseFields fuel) (skipWs bytes)

/-- Parse the elements of a non-empty JSON array, up to and including the
closing bracket. -/
def parseElems : Nat → List Nat → Option (List Json × List Nat)
  | 0, _ => none
  | fuel + 1, bytes =>
    match parseValue fuel bytes with
    | some (v, rest) => parseElemsTail (parseElems fuel) v (skipWs rest)
    | none => none

/-- Parse the fields of a non-empty JSON object, up to and including the
closing brace. -/
def parseFields : Nat → List Nat → Option (List (List Nat × Json) × List Nat)
  | 0, _ => none
  | fuel + 1, bytes => parseFieldsTop (parseValue fuel) (parseFields fuel) (skipWs bytes)

end

mutual

/-- Fuel sufficient for `parseValue` to parse the serialisation of `v`. -/
def needValue : Json → Nat
  | .null => 1
  | .bool _ => 1
  | .num _ => 1
  | .str _ => 1
  | .arr l => 1 + needElems l
  | .obj l => 1 + needFields l

/-- Fuel sufficient for `parseElems` on the serialised elements. -/
def needElems : List Json → Nat
  | [] => 0
  | e :: es => 1 + max (needValue e) (needElems es)

/-- Fuel sufficient for `parseFields` on the serialised fields. -/
def needFields : List (List Nat × Json) → Nat
  | [] => 0
  | (_, v) :: fs => 1 + max (needValue v) (needFields fs)

end

/-- Model of `JSON.parse` applied to the decoded message: parse one value,
then require that only whitespace remains. -/
def jsonParse (bytes : List Nat) : Option Json :=
  match parseValue (bytes.length + 1) bytes with
  | some (v, rest) => if skipWs rest = [] then some v else none
  | none => none

/-! ## Framed transport

`QuickJSDebugConnection.sendMessage` writes
`byteLength(body).toString(16).padStart(8, "0") ++ "\n" ++ body`, where
`body` is `JSON.stringify(message) + "\n"`.  `addMessageListener`
reassembles message bodies from arbitrary chunk boundaries with a
two-state machine (`"length"`/`"content"`), alternating between a 9-byte
header read and an N-byte body read. -/

/-- Body bytes of a message: serialised JSON plus trailing newline
(`Buffer.from(JSON.stringify(message) + "\n")`). -/
def messageBody (v : Json) : List Nat :=
  stringifyJson v ++ [10]

/-- The packet `sendMessage` writes for a message. -/
def sendMessagePacket (v : Json) : List Nat :=
  padHex8 (messageBody v).length ++ 10 :: messageBody v

/-- Longest prefix of hex-digit bytes as digit values, with the remainder. -/
def takeHexDigits : List Nat → List Nat × List Nat
  | [] => ([], [])
  | b :: r =>
    match hexDigitVal b with
    | some d =>
      let p := takeHexDigits r
      (d :: p.1, p.2)
    | none => ([], b :: r)

/-- Hex digit run with optional `0x`/`0X` prefix. -/
def hexDigitsParse (bs : List Nat) : Option Nat :=
  let core : List Nat := match bs with
    | b0 :: b1 :: r => if b0 = 48 ∧ (b1 = 120 ∨ b1 = 88) then r else b0 :: b1 :: r
    | other => other
  let p := takeHexDigits core
  if p.1 = [] then none else some (digitsToNat 16 p.1)

/-- Model of `parseInt(headerText, 16)` on the 9 header bytes: skip leading
whitespace, optional sign, optional `0x`, then the longest hex-digit run.
`none` models `NaN`; a `-` sign is also mapped to `none` (a negative
trigger length, like `NaN`, never again satisfies the buffered-length
test, so the parser makes no further progress either way). -/
def hexParse (bs : List Nat) : Option Nat :=
  match skipWs bs with
  | [] => none
  | b :: r =>
    if b = 45 then none
    else if b = 43 then hexDigitsParse r
    else hexDigitsParse (b :: r)

/-- Parser state of `addMessageListener`: waiting for a 9-byte header
(`"length"`, trigger 9), waiting for an `n`-byte body (`"content"`), or
stuck after an unparseable header (trigger `NaN`).  `buf` is the pending
buffered input (`chunks`/`bufferLength`). -/
inductive FState where
  | len (buf : List Nat)
  | content (n : Nat) (buf : List Nat)
  | stuck (buf : List Nat)
deriving Repr, DecidableEq

/-- Initial listener state: `state = "length"`, `triggerLength = 9`, empty
buffer. -/
def initFState : FState :=
  .len []

/-- Buffered bytes of a state. -/
def FState.buffer : FState → List Nat
  | .len buf => buf
  | .content _ buf => buf
  | .stuck buf => buf

/-- Append newly received bytes to the buffer (`chunks.push(chunk)`). -/
def FState.push : FState → List Nat → FState
  | .len buf, c => .len (buf ++ c)
  | .content n buf, c => .content n (buf ++ c)
  | .stuck buf, c => .stuck (buf ++ c)

/-- The `while (bufferLength >= triggerLength)` loop of
`addMessageListener`: repeatedly consume a trigger-sized chunk, delivering
each completed body.  Returns the delivered bodies in order and the
residual state. -/
def drain : FState → List (List Nat) × FState
  | .stuck buf => ([], .stuck buf)
  | .len buf =>
    if buf.length < 9 then ([], .len buf)
    else
      match hexParse (buf.take 9) with
      | some n => drain (.content n (buf.drop 9))
      | none => ([], .stuck (buf.drop 9))
  | .content n buf =>
    if buf.length < n then ([], .content n buf)
    else
      let p := drain (.len (buf.drop n))
      (buf.take n :: p.1, p.2)
termination_by s => 2 * s.buffer.length + (match s with | .content _ _ => 1 | _ => 0)
decreasing_by
  · simp only [FState.buffer, List.length_drop]
    omega
  · simp only [FState.buffer, List.length_drop]
    omega

/-- Handle one `data` event: buffer the chunk, then drain. -/
def feedChunk (s : FState) (chunk : List Nat) : List (List Nat) × FState :=
  drain (s.push chunk)

/-- Feed a sequence of chunks, accumulating delivered bodies. -/
def feedAll (s : FState) : List (List Nat) → List (List Nat) × FState
  | [] => ([], s)
  | c :: cs =>
    let p := feedChunk s c
    let q := feedAll p.2 cs
    (p.1 ++ q.1, q.2)

/-! ## Session layer: variables and handles (session.ts) -/

/-- A JS primitive value as held in `QuickJSHandle.primitiveValue`.
`float` carries the raw text handed to `parseFloat`: IEEE-754 semantics
are not shallow-embeddable and no verified property depends on the
numeric value of a float. `int none` models `NaN` from `parseInt`. -/
inductive JSVal where
  | undef
  | null
  | bool (b : Bool)
  | int (i : Option Int)
  | float (raw : String)
  | str (s : String)
deriving Repr, DecidableEq

/-- Leading JS whitespace used by `parseInt`. -/
def jsSkipWsChars : List Char → List Char
  | [] => []
  | c :: r => if c = ' ' ∨ c = '\t' ∨ c = '\n' ∨ c = '\r' then jsSkipWsChars r else c :: r

/-- Longest prefix of decimal digit characters, with the remainder. -/
def takeDigitsChars : List Char → List Char × List Char
  | [] => ([], [])
  | c :: r =>
    if c.isDigit then
      let p := takeDigitsChars r
      (c :: p.1, p.2)
    else ([], c :: r)

/-- Value of a most-significant-first decimal digit character run. -/
def digitsVal (ds : List Char) : Nat :=
  ds.foldl (fun a c => a * 10 + (c.toNat - 48)) 0

/-- JS `parseInt(s, 10)`: skip leading whitespace, optional sign, longest
digit prefix; `none` models `NaN` (no digits). -/
def parseIntBase10 (s : String) : Option Int :=
  let cs := jsSkipWsChars s.data
  let core : Bool × List Char := match cs with
    | '-' :: r => (true, r)
    | '+' :: r => (false, r)
    | r => (false, r)
  let p := takeDigitsChars core.2
  if p.1 = [] then none
  else
    let v : Int := Int.ofNat (digitsVal p.1)
    some (if core.1 then -v else v)

/-- Wire `VariableInfo` (session.ts). -/
structure VariableInfo where
  name : String
  value : String
  type : Option String := none
  variablesReference : Nat
  indexedVariables : Option Nat := none
deriving Repr, DecidableEq

/-- The observable fields of a `QuickJSHandle`/`QuickJSVariable` (the
back-pointer to the session is dropped: the model passes the debuggee
environment explicitly). -/
structure Handle where
  name : String
  ref : Nat
  primitive : Bool
  primitiveValue : JSVal
  type : Option String
  isArray : Bool
  indexedCount : Option Nat
  valueAsString : Option String
deriving Repr, DecidableEq

/-- The `QuickJSVariable` constructor: typing rules applied to a wire
`VariableInfo`.  `object`/`function` fall through to the default case
(which also records `valueAsString`). -/
def mkVariable (vi : VariableInfo) : Handle :=
  let base : Handle := {
    name := vi.name
    ref := vi.variablesReference
    primitive := true
    primitiveValue := .undef
    type := vi.type
    isArray := false
    indexedCount := none
    valueAsString := none }
  match vi.type with
  | some "string" => { base with primitiveValue := .str vi.value }
  | some "integer" => { base with primitiveValue := .int (parseIntBase10 vi.value) }
  | some "float" => { base with primitiveValue := .float vi.value }
  | some "boolean" => { base with primitiveValue := .bool (vi.value == "true") }
  | some "null" => { base with primitiveValue := .null }
  | some "undefined" => { base with primitiveValue := .undef }
  | some "object" =>
      { base with primitive := false, isArray := vi.indexedVariables.isSome,
                  indexedCount := vi.indexedVariables, valueAsString := some vi.value }
  | some "function" =>
      { base with primitive := false, isArray := vi.indexedVariables.isSome,
                  indexedCount := vi.indexedVariables, valueAsString := some vi.value }
  | _ => { base with primitive := false, valueAsString := some vi.value }

/-- JS `String(primitiveValue)` for the values a handle can hold.  For
`float` the raw text stands in; `inspect` returns `primitiveValue` for
primitive handles before ever rendering, so this case is unreachable
there. -/
def JSVal.render : JSVal → String
  | .undef => "undefined"
  | .null => "null"
  | .bool true => "true"
  | .bool false => "false"
  | .int (some i) => toString i
  | .int none => "NaN"
  | .float raw => raw
  | .str s => s

/-- `QuickJSHandle.toString`: `valueAsString ?? String(primitiveValue)`. -/
def Handle.render (h : Handle) : String :=
  h.valueAsString.getD h.primitiveValue.render

/-! ## Object-graph inspection (`QuickJSHandle.inspect`) -/

/-- Options of the child `variables` request built by `inspectInternal`
for array handles. -/
structure VarOptions where
  filter : Option String := none
  start : Option Nat := none
  count : Option Nat := none
deriving Repr, DecidableEq

/-- The remote debuggee as `inspect` observes it: the outcome of the
`variables` request for a reference with given options; `none` models a
rejected request (caught by `inspectInternal`). -/
def Env : Type :=
  Nat → Option VarOptions → Option (List VariableInfo)

/-- A value materialised by `inspect`: a decoded primitive, a reference to
a container in the arena (container identity is the arena index), or a
rendered string (`String(this)` — non-object handles and depth 0). -/
inductive IVal where
  | prim (v : JSVal)
  | node (idx : Nat)
  | vstr (s : String)
deriving Repr, DecidableEq

/-- A materialised container: `[]`/`{}` shape, the originating remote
reference (the hidden `QuickJSRef` tag), the assigned properties, and the
prototype installed when `inspectProto` materialises `__proto__`. -/
structure ANode where
  isArr : Bool
  ref : Nat
  fields : List (String × IVal)
  proto : Option IVal
deriving Repr, DecidableEq

/-- State threaded through one `inspect` call: the arena of containers
(heap; identity is the index) and the per-call `referenceMap`. -/
structure InspectSt where
  arena : List ANode
  refMap : List (Nat × IVal)
deriving Repr, DecidableEq

/-- Empty per-call state. -/
def emptyInspectSt : InspectSt :=
  ⟨[], []⟩

/-- JS property assignment on a container: overwrite in place if the name
exists, else append. -/
def assocSet : List (String × IVal) → String → IVal → List (String × IVal)
  | [], nm, v => [(nm, v)]
  | (k, w) :: t, nm, v => if k = nm then (k, v) :: t else (k, w) :: assocSet t nm v

/-- Update the element at an index (no-op when out of range). -/
def listModify {α : Type} (l : List α) (idx : Nat) (f : α → α) : List α :=
  match l, idx with
  | [], _ => []
  | x :: t, 0 => f x :: t
  | x :: t, i + 1 => x :: listModify t i f

/-- `result[property.name] = value` on the container at `idx`. -/
def addField (st : InspectSt) (idx : Nat) (nm : String) (v : IVal) : InspectSt :=
  ⟨listModify st.arena idx (fun nd => { nd with fields := assocSet nd.fields nm v }), st.refMap⟩

/-- `Object.setPrototypeOf(result, proto)` on the container at `idx`. -/
def setProto (st : InspectSt) (idx : Nat) (v : IVal) : InspectSt :=
  ⟨listModify st.arena idx (fun nd => { nd with proto := some v }), st.refMap⟩

/-- JS `typeof x === "object"` on a materialised value: containers and
`null`. -/
def IVal.isObjLike : IVal → Bool
  | .node _ => true
  | .prim .null => true
  | _ => false

/-- First-match field lookup on a materialised container. -/
def ANode.field (nd : ANode) (nm : String) : Option IVal :=
  (nd.fields.find? (fun p => p.1 == nm)).map Prod.snd

/-- Process the fetched child properties of the container at `idx`
(the body of the `Promise.all(properties.map(...))`, serialised in list
order): `__proto__` children are skipped unless `inspectProto`, in which
case an object-like materialisation becomes the prototype; every other
child is materialised and assigned.  `rec` is the recursive
materialisation at the next depth. -/
def inspectChildren (rec : Handle → InspectSt → IVal × InspectSt) (pr : Bool) :
    List VariableInfo → Nat → InspectSt → InspectSt
  | [], _, st => st
  | vi :: rest, idx, st =>
    if vi.name = "__proto__" then
      if pr then
        let r1 := rec (mkVariable vi) st
        let st2 := if r1.1.isObjLike then setProto r1.2 idx r1.1 else r1.2
        inspectChildren rec pr rest idx st2
      else inspectChildren rec pr rest idx st
    else
      let r1 := rec (mkVariable vi) st
      inspectChildren rec pr rest idx (addField r1.2 idx vi.name r1.1)

/-- The head dispatch of `inspectInternal`: a primitive handle returns
its decoded value, a reference already in the per-call `referenceMap`
returns the mapped container, and only otherwise does the expansion
continuation run. -/
def inspectStep (h : Handle) (st : InspectSt)
    (expand : Handle → InspectSt → IVal × InspectSt) : IVal × InspectSt :=
  match h.primitive, List.lookup h.ref st.refMap with
  | true, _ => (.prim h.primitiveValue, st)
  | false, some v => (v, st)
  | false, none => expand h st

/-- Materialise a fresh container for an object handle: create the `[]`
or `{}` shape, insert it into the `referenceMap` keyed by the current
`ref` *before* fetching children, fetch the children (an array handle
passes `filter: "indexed", start: 0, count: indexedCount`; a failing
request yields the empty list via the `try`/`catch`), then materialise
each child through `rec`. -/
def inspectExpand (env : Env) (pr : Bool)
    (rec : Handle → InspectSt → IVal × InspectSt) (h : Handle) (st : InspectSt) :
    IVal × InspectSt :=
  let idx := st.arena.length
  let node0 : ANode := ⟨h.isArray, h.ref, [], none⟩
  let getOpts : Option VarOptions :=
    if h.isArray then some ⟨some "indexed", some 0, h.indexedCount⟩ else none
  let st1 : InspectSt := ⟨st.arena ++ [node0], (h.ref, .node idx) :: st.refMap⟩
  let props : List VariableInfo := (env h.ref getOpts).getD []
  let st2 := inspectChildren rec pr props idx st1
  (.node idx, st2)

/-- `QuickJSHandle.inspectInternal`: primitives return their decoded
value; a reference already in the per-call `referenceMap` returns the
mapped container; an object handle with remaining depth expands; anything
else returns `String(this)`. -/
def inspectInternal (env : Env) (pr : Bool) : Nat → Handle → InspectSt → IVal × InspectSt
  | depth, h, st =>
    inspectStep h st fun h' st' =>
      if h'.type = some "object" then
        match depth with
        | d + 1 => inspectExpand env pr (fun h2 s2 => inspectInternal env pr d h2 s2) h' st'
        | 0 => (.vstr h'.render, st')
      else (.vstr h'.render, st')

/-- Options of `QuickJSHandle.inspect`. -/
structure InspectOptions where
  maxDepth : Option Nat := none
  inspectProto : Option Bool := none
deriving Repr, DecidableEq

/-- `QuickJSHandle.inspect`: fresh per-call `referenceMap`, default
`maxDepth` 16, `inspectProto` falsy by default. -/
def inspect (env : Env) (h : Handle) (options : Option InspectOptions) : IVal × InspectSt :=
  let o := options.getD {}
  inspectInternal env (o.inspectProto.getD false) (o.maxDepth.getD 16) h emptyInspectSt

/-! ## Stack frames (`traceStack` / `getTopStack`) -/

/-- Wire `StackFrameInfo`. -/
structure StackFrameInfo where
  id : Nat
  name : String
  filename : String
  line : Nat
  column : Nat
deriving Repr, DecidableEq

/-- The observable fields of a `QuickJSStackFrame`. -/
structure StackFrame where
  id : Nat
  name : String
  fileName : String
  lineNumber : Nat
deriving Repr, DecidableEq

/-- The `QuickJSStackFrame` constructor. -/
def mkStackFrame (fi : StackFrameInfo) : StackFrame :=
  ⟨fi.id, fi.name, fi.filename, fi.line⟩

/-- `QuickJSDebugSession.traceStack`: map the `stackTrace` response to
frames, in debuggee order. -/
def traceStack (res : List StackFrameInfo) : List StackFrame :=
  res.map mkStackFrame

/-- `QuickJSDebugSession.getTopStack`: `(await this.traceStack())[0]`; JS
indexing past the end of an array yields `undefined`, modelled `none`. -/
def getTopStack (res : List StackFrameInfo) : Option StackFrame :=
  (traceStack res).head?

/-- The fields of `DebugProtocol.EvaluateResponse['body']` that
`QuickJSDebugSession.evaluate` spreads into a `VariableInfo`. -/
structure EvaluateResponseBody where
  result : String
  type : Option String := none
  variablesReference : Nat
  indexedVariables : Option Nat := none
deriving Repr, DecidableEq

/-- `QuickJSDebugSession.evaluate` applied to the debuggee's response:
`new QuickJSVariable(this, { ...res, name: 'result', value: res.result })`. -/
def evaluateResult (res : EvaluateResponseBody) : Handle :=
  mkVariable
    { name := "result"
      value := res.result
      type := res.type
      variablesReference := res.variablesReference
      indexedVariables := res.indexedVariables }

/-! ## Debug connection request correlation (connection.ts)

`QuickJSDebugConnection` state as the claims observe it.  Futures are
modelled as a settle-once ledger (`resolve`/`reject` on a settled promise
is a no-op); the `finally` handler that removes the reaction-map entry on
settle is modelled atomically with the settle. -/

/-- Envelopes written to the socket, as far as the claims observe them. -/
inductive WireMsg where
  | request (seq : Nat) (command : String)
  | envelope (etype : String)
deriving Repr, DecidableEq

/-- Status of the future returned by one `sendRequest` call. -/
inductive FutState where
  | waiting
  | resolved (body : Option Json)
  | rejectedRemote (error : String)
  | rejectedTimeout (ms : Nat)
  | rejectedClosed (msg : String)
deriving Repr

/-- Connection state: the sequence counter, configured timeout, socket
openness, the reaction-map keys (`requestReactions`), the armed timeout
delay per request, the future ledger, the written envelopes and the
number of `end` events emitted. -/
structure ConnState where
  requestSeq : Nat
  requestTimeout : Nat
  isOpen : Bool
  pending : List Nat
  timers : List (Nat × Nat)
  futures : List (Nat × FutState)
  wire : List WireMsg
  endCount : Nat
deriving Repr

/-- State after the constructor: `requestTimeout = 10000`,
`requestSeq = 1`, empty reaction map. -/
def initConn : ConnState :=
  ⟨1, 10000, true, [], [], [], [], 0⟩

/-- `sendRequest`: allocate `requestSeq` and bump the counter
(`sendRequestRaw`), write the request envelope, register the reaction and
arm a timer for `requestTimeout` ms. -/
def sendRequest (st : ConnState) (cmd : String) : ConnState :=
  { st with
    requestSeq := st.requestSeq + 1
    wire := st.wire ++ [.request st.requestSeq cmd]
    pending := st.pending ++ [st.requestSeq]
    timers := st.timers ++ [(st.requestSeq, st.requestTimeout)]
    futures := st.futures ++ [(st.requestSeq, .waiting)] }

/-- `sendEnvelope` for non-request envelopes (`resume`, `breakpoints`,
…): writes to the wire, touches no correlation state. -/
def sendEnvelopeConn (st : ConnState) (etype : String) : ConnState :=
  { st with wire := st.wire ++ [.envelope etype] }

/-- A `"response"` envelope. -/
structure RespMsg where
  request_seq : Nat
  error : Option String := none
  body : Option Json := none

/-- Truthiness of `response.error` (`if (response.error)`): present and
non-empty. -/
def errTruthy (e : Option String) : Bool :=
  match e with
  | none => false
  | some s => !(s == "")

/-- Settle a future if it is still waiting (settling a settled promise is
a no-op). -/
def settleFut : List (Nat × FutState) → Nat → FutState → List (Nat × FutState)
  | [], _, _ => []
  | (k, f) :: t, seq, v =>
    if k = seq then
      (k, match f with | .waiting => v | other => other) :: t
    else (k, f) :: settleFut t seq v

/-- `handleMessage` on a `"response"` envelope: look up the reaction by
`request_seq`; if present, delete it, then reject with the debuggee's
error string when `error` is truthy, else resolve with `body`.  No
reaction: nothing happens. -/
def handleResponse (st : ConnState) (r : RespMsg) : ConnState :=
  if st.pending.contains r.request_seq then
    let st1 := { st with pending := st.pending.filter (fun s => s != r.request_seq) }
    if errTruthy r.error then
      { st1 with futures := settleFut st1.futures r.request_seq (.rejectedRemote (r.error.getD "")) }
    else
      { st1 with futures := settleFut st1.futures r.request_seq (.resolved r.body) }
  else st

/-- The `setTimeout` callback of a request: reject the future with the
timeout error (message built from the `requestTimeout` captured at send
time) if it is still unsettled; the settle removes the reaction-map
entry via `finally`. -/
def fireTimeout (st : ConnState) (seq : Nat) : ConnState :=
  match st.futures.lookup seq with
  | some .waiting =>
      { st with
        futures := settleFut st.futures seq
          (.rejectedTimeout ((st.timers.lookup seq).getD st.requestTimeout))
        pending := st.pending.filter (fun s => s != seq) }
  | _ => st

/-- One observable rejection performed by the `end` handler: the future,
the error message, and the reaction-map contents at the moment the
rejecter callback runs. -/
structure RejectObs where
  seq : Nat
  msg : String
  pendingAtCall : List Nat
deriving Repr, DecidableEq

/-- Reject every snapshotted future in order, recording what each
rejecter observes. -/
def rejectAll (st : ConnState) : List Nat → ConnState × List RejectObs
  | [] => (st, [])
  | s :: rest =>
    let st1 := { st with futures := settleFut st.futures s (.rejectedClosed "Protocol is closed") }
    let q := rejectAll st1 rest
    (q.1, ⟨s, "Protocol is closed", st.pending⟩ :: q.2)

/-- The socket `end` handler: emit `end`, snapshot the reactions, clear
the map, reject every snapshotted future with `Protocol is closed`, and
clear again. -/
def handleEnd (st : ConnState) : ConnState × List RejectObs :=
  let st1 := { st with endCount := st.endCount + 1, isOpen := false }
  let snapshot := st1.pending
  let st2 := { st1 with pending := [] }
  let step := rejectAll st2 snapshot
  ({ step.1 with pending := [] }, step.2)

/-- The intermediate state of the `end` handler after emitting `end` and
clearing the reaction map, before the rejecters run. -/
def endInner (st : ConnState) : ConnState :=
  { st with endCount := st.endCount + 1, isOpen := false, pending := [] }

/-- Connection-level actions a run interleaves. -/
inductive CAct where
  | send (cmd : String)
  | sendEnv (etype : String)
  | recv (r : RespMsg)
  | fire (seq : Nat)
  | streamEnd

/-- Run a sequence of actions. -/
def runConn (st : ConnState) : List CAct → ConnState
  | [] => st
  | a :: acts =>
    let st1 := match a with
      | .send c => sendRequest st c
      | .sendEnv t => sendEnvelopeConn st t
      | .recv r => handleResponse st r
      | .fire s => fireTimeout st s
      | .streamEnd => (handleEnd st).1
    runConn st1 acts

/-- The `request_seq` values on the wire, in write order. -/
def wireRequestSeqs (w : List WireMsg) : List Nat :=
  w.filterMap fun m => match m with
    | .request s _ => some s
    | .envelope _ => none

/-- Number of `sendRequest` calls in an action sequence. -/
def countSends : List CAct → Nat
  | [] => 0
  | .send _ :: acts => countSends acts + 1
  | _ :: acts => countSends acts

/-! ## Minecraft-extended session (minecraft.ts) -/

/-- Locally configured `ProtocolInfo`. -/
structure ProtocolInfo where
  version : Nat
  targetModuleUuid : Option String := none
  passcode : Option String := none
deriving Repr, DecidableEq

/-- The `"protocol"` envelope payload sent by the `ProtocolEvent` handler,
after JSON serialisation (a field holding `undefined` is dropped, so each
optional field is present on the wire exactly when configured). -/
structure ProtocolEnvelope where
  version : Nat
  target_module_uuid : Option String
  passcode : Option String
deriving Repr, DecidableEq

/-- The `ProtocolEvent` handler of `MinecraftDebugSession`: record the
debuggee's version; if a local `ProtocolInfo` is configured, echo a
`protocol` envelope carrying the configured version, target module uuid
and passcode.  The handler applies no version gate to any field. -/
def handleProtocolEvent (protocolInfo : Option ProtocolInfo) (evVersion : Nat) :
    Nat × Option ProtocolEnvelope :=
  (evVersion,
    match protocolInfo with
    | some pi => some ⟨pi.version, pi.targetModuleUuid, pi.passcode⟩
    | none => none)

/-- `BreakpointInfo` (session.ts). -/
structure BreakpointInfo where
  line : Nat
  column : Option Nat := none
deriving Repr, DecidableEq

/-- Per-breakpoint verification status. -/
structure BreakpointStatus where
  verified : Bool
deriving Repr, DecidableEq

/-- Unicode scalars of a Lean string (JSON-model string). -/
def strToScalars (s : String) : List Nat :=
  s.data.map Char.toNat

/-- JSON shape of one breakpoint (`{line, column?}`). -/
def breakpointJson (bp : BreakpointInfo) : Json :=
  .obj ((strToScalars "line", Json.num (bp.line : Int)) ::
    match bp.column with
    | some c => [(strToScalars "column", Json.num (c : Int))]
    | none => [])

/-- Serialised payload of the fire-and-forget `breakpoints` envelope:
`{breakpoints: {path, breakpoints: bps.length ? bps : undefined}}` — the
inner `breakpoints` key is dropped by JSON serialisation when the list is
empty. -/
def breakpointsEnvelopePayload (path : String) (bps : List BreakpointInfo) : Json :=
  .obj [(strToScalars "breakpoints",
    .obj ((strToScalars "path", Json.str (strToScalars path)) ::
      (if bps.isEmpty then []
       else [(strToScalars "breakpoints", Json.arr (bps.map breakpointJson))])))]

/-- Field lookup in a JSON object. -/
def Json.objField (j : Json) (key : String) : Option Json :=
  match j with
  | .obj fields => (fields.find? (fun p => p.1 == strToScalars key)).map Prod.snd
  | _ => none

/-- Wire traffic a session operation produces. -/
inductive SessionOut where
  | envelopeOut (etype : String) (payload : Json)
  | requestOut (command : String) (path : String) (lines : List Nat)
deriving Repr

/-- `QuickJSDebugSession.setBreakpoints`: the fire-and-forget
`breakpoints` envelope. -/
def baseSetBreakpoints (path : String) (bps : List BreakpointInfo) : SessionOut :=
  .envelopeOut "breakpoints" (breakpointsEnvelopePayload path bps)

/-- Modelled from the spec: `MinecraftDebugSession.setBreakpointLines` is
referenced by `MinecraftDebugSession.setBreakpoints` but its definition is
not among the provided sources.  Per the spec, on v6+ breakpoint delivery
is an awaitable `setBreakpoints` request that resolves with the
per-breakpoint verification statuses returned by the debuggee
(`debuggeeReply`). -/
def setBreakpointLines (path : String) (lines : List Nat)
    (debuggeeReply : List BreakpointStatus) : List SessionOut × List BreakpointStatus :=
  ([.requestOut "setBreakpoints" path lines], debuggeeReply)

/-- `MinecraftDebugSession.setBreakpoints`: with
`protocolVersion ≥ SupportBreakpointsAsRequest (6)` delegate to the
request path on the breakpoint lines; otherwise send the fire-and-forget
envelope and synthesise `{verified: true}` for every supplied
breakpoint. -/
def mcSetBreakpoints (protocolVersion : Nat) (path : String) (bps : List BreakpointInfo)
    (debuggeeReply : List BreakpointStatus) : List SessionOut × List BreakpointStatus :=
  if protocolVersion ≥ 6 then
    setBreakpointLines path (bps.map (·.line)) debuggeeReply
  else
    ([baseSetBreakpoints path bps], bps.map fun _ => ⟨true⟩)

/-! ## Concrete scenarios used by the claims -/

/-- The two-node cyclic remote object graph `A.next = B; B.prev = A`
(references 1 and 2). -/
def cycleEnv : Env := fun r _ =>
  if r = 1 then
    some [{ name := "next", value := "[object Object]", type := some "object",
            variablesReference := 2 }]
  else if r = 2 then
    some [{ name := "prev", value := "[object Object]", type := some "object",
            variablesReference := 1 }]
  else none

/-- The handle for node `A` of the cycle. -/
def cycleHandleA : Handle :=
  mkVariable
    { name := "A", value := "[object Object]", type := some "object", variablesReference := 1 }

/-- A debuggee environment with no inspectable references (every
`variables` request fails). -/
def emptyEnv : Env := fun _ _ => none

end QJSD

namespace QJSD

/-! # Theorems -/

/-- C10: when the debuggee's `stackTrace` response is the empty list,
`getTopStack` resolves to `undefined` (`none`) rather than raising; for
every non-empty response it resolves to the first stack frame of
`traceStack` in debuggee order (top frame first). -/
theorem C10_getTopStack_safe :
    getTopStack [] = none ∧
    ∀ (fi : StackFrameInfo) (rest : List StackFrameInfo),
      getTopStack (fi :: rest) = some (mkStackFrame fi) ∧
      traceStack (fi :: rest) = mkStackFrame fi :: traceStack rest := by
  exact ⟨rfl, fun fi rest => ⟨rfl, rfl⟩⟩

/-- C8 counterexample: with a configured `ProtocolInfo` of version 1
carrying both optional fields, the protocol handshake echo includes both
`target_module_uuid` and `passcode`, although version 1 is below both
thresholds (2 and 4) — the handler applies no version gate, refuting the
claim as stated at this input (the received event version is also 1, so
both readings of "the protocol version" are covered). -/
theorem C8_counterexample :
    handleProtocolEvent (some ⟨1, some "U", some "P"⟩) 1 =
      (1, some ⟨1, some "U", some "P"⟩) ∧
    (some "U").isSome = true ∧ (some "P").isSome = true ∧ ¬ 2 ≤ 1 ∧ ¬ 4 ≤ 1 := by
  refine ⟨rfl, rfl, rfl, by omega, by omega⟩

/-- C8 amended: whenever the host-extended session receives a protocol
handshake event and a local `ProtocolInfo` is configured, it records the
event's version and echoes a protocol envelope carrying the configured
version; the envelope includes `target_module_uuid` (resp. `passcode`)
exactly when the configured `ProtocolInfo` carries that field,
independent of any protocol version. -/
theorem C8_protocol_echo (pi : ProtocolInfo) (evVersion : Nat) :
    (handleProtocolEvent (some pi) evVersion).1 = evVersion ∧
    (handleProtocolEvent (some pi) evVersion).2 =
      some ⟨pi.version, pi.targetModuleUuid, pi.passcode⟩ ∧
    ((handleProtocolEvent (some pi) evVersion).2.map
        (fun e => e.target_module_uuid.isSome)) = some pi.targetModuleUuid.isSome ∧
    ((handleProtocolEvent (some pi) evVersion).2.map
        (fun e => e.passcode.isSome)) = some pi.passcode.isSome := by
  exact ⟨rfl, rfl, rfl, rfl⟩

/-- C9 counterexample: on protocol version 1 (below 6) with an empty
breakpoint list, the inner object of the emitted `breakpoints` envelope
payload carries no `breakpoints` key at all (the source passes
`undefined`, which JSON serialisation drops) — not `null` as the claim
states. -/
theorem C9_counterexample :
    (mcSetBreakpoints 1 "x.js" [] []).1 =
      [.envelopeOut "breakpoints" (breakpointsEnvelopePayload "x.js" [])] ∧
    ((breakpointsEnvelopePayload "x.js" []).objField "breakpoints").map
        (fun inner => inner.objField "breakpoints") = some none ∧
    (none : Option Json) ≠ some Json.null := by
  refine ⟨rfl, rfl, by simp⟩

/-- C9 amended: when the tracked protocol version is at least 6,
`setBreakpoints` issues the awaitable `setBreakpoints` request (modelled
from the spec) and resolves with the debuggee's per-breakpoint statuses,
sending no fire-and-forget envelope; below 6, it emits the
fire-and-forget `breakpoints` envelope whose payload is
`{breakpoints: {path, breakpoints: bps}}` with the inner `breakpoints`
key omitted when the list is empty, and returns `{verified: true}` for
every supplied breakpoint. -/
theorem C9_setBreakpoints_dialect (v : Nat) (path : String) (bps : List BreakpointInfo)
    (reply : List BreakpointStatus) :
    (6 ≤ v →
      mcSetBreakpoints v path bps reply =
        ([.requestOut "setBreakpoints" path (bps.map (·.line))], reply)) ∧
    (v < 6 →
      (mcSetBreakpoints v path bps reply).1 =
        [.envelopeOut "breakpoints" (breakpointsEnvelopePayload path bps)] ∧
      (mcSetBreakpoints v path bps reply).2 = bps.map (fun _ => ⟨true⟩) ∧
      (bps = [] →
        ((breakpointsEnvelopePayload path bps).objField "breakpoints").map
          (fun inner => inner.objField "breakpoints") = some none) ∧
      (bps ≠ [] →
        ((breakpointsEnvelopePayload path bps).objField "breakpoints").map
          (fun inner => inner.objField "breakpoints") =
            some (some (.arr (bps.map breakpointJson))))) := by
  constructor
  · intro h6
    simp [mcSetBreakpoints, setBreakpointLines, h6]
  · intro hlt
    have h6 : ¬ 6 ≤ v := by omega
    refine ⟨by simp [mcSetBreakpoints, h6, baseSetBreakpoints],
            by simp [mcSetBreakpoints, h6], ?_, ?_⟩
    · intro hbps
      subst hbps
      rfl
    · intro hbps
      have hne : bps.isEmpty = false := by
        cases bps with
        | nil => exact absurd rfl hbps
        | cons a t => rfl
      simp [breakpointsEnvelopePayload, hne, Json.objField]
      decide

/-- C9 witness: both branches of the amended dialect at concrete inputs
(version 6 with one breakpoint; version 1 with an empty and a non-empty
list). -/
theorem C9_setBreakpoints_dialect_witness :
    (mcSetBreakpoints 6 "x.js" [⟨10, none⟩] [⟨false⟩] =
      ([.requestOut "setBreakpoints" "x.js" [10]], [⟨false⟩])) ∧
    ((mcSetBreakpoints 1 "x.js" [] []).1 =
      [.envelopeOut "breakpoints" (breakpointsEnvelopePayload "x.js" [])]) ∧
    (mcSetBreakpoints 1 "x.js" [⟨10, none⟩, ⟨20, none⟩] []).2 = [⟨true⟩, ⟨true⟩] := by
  refine ⟨?_, ?_, ?_⟩
  · exact (C9_setBreakpoints_dialect 6 "x.js" [⟨10, none⟩] [⟨false⟩]).1 (by omega)
  · exact ((C9_setBreakpoints_dialect 1 "x.js" [] []).2 (by omega)).1
  · exact ((C9_setBreakpoints_dialect 1 "x.js" [⟨10, none⟩, ⟨20, none⟩] []).2 (by omega)).2.1

/-- C3: constructing a Variable from any wire `VariableInfo` follows the
typing rules exactly — `string` keeps the raw value, `integer` parses
base-10, `float` applies `parseFloat` (the raw text in this model),
`boolean` compares with `"true"`, `null`/`undefined` are primitives with
absent value, `object`/`function` are non-primitive with
`isArray = (indexedVariables != null)` and `indexedCount =
indexedVariables`, and any other type string is non-primitive opaque
keeping `valueAsString`; and `evaluate` on the response
`{result: "2", type: "integer", variablesReference: 0}` yields a Variable
with `name = "result"`, `type = "integer"`, `primitive = true`,
`primitiveValue = 2`. -/
theorem C3_variable_typing_rules :
    (∀ vi : VariableInfo,
      (vi.type = some "string" →
        (mkVariable vi).primitive = true ∧ (mkVariable vi).primitiveValue = .str vi.value) ∧
      (vi.type = some "integer" →
        (mkVariable vi).primitive = true ∧
        (mkVariable vi).primitiveValue = .int (parseIntBase10 vi.value)) ∧
      (vi.type = some "float" →
        (mkVariable vi).primitive = true ∧ (mkVariable vi).primitiveValue = .float vi.value) ∧
      (vi.type = some "boolean" →
        (mkVariable vi).primitive = true ∧
        (mkVariable vi).primitiveValue = .bool (vi.value == "true")) ∧
      (vi.type = some "null" →
        (mkVariable vi).primitive = true ∧ (mkVariable vi).primitiveValue = .null) ∧
      (vi.type = some "undefined" →
        (mkVariable vi).primitive = true ∧ (mkVariable vi).primitiveValue = .undef) ∧
      ((vi.type = some "object" ∨ vi.type = some "function") →
        (mkVariable vi).primitive = false ∧
        (mkVariable vi).isArray = vi.indexedVariables.isSome ∧
        (mkVariable vi).indexedCount = vi.indexedVariables) ∧
      (vi.type ∉ ([some "string", some "integer", some "float", some "boolean", some "null",
          some "undefined", some "object", some "function"] : List (Option String)) →
        (mkVariable vi).primitive = false ∧
        (mkVariable vi).valueAsString = some vi.value) ∧
      (mkVariable vi).name = vi.name ∧
      (mkVariable vi).ref = vi.variablesReference ∧
      (mkVariable vi).type = vi.type) ∧
    evaluateResult { result := "2", type := some "integer", variablesReference := 0 } =
      { name := "result", ref := 0, primitive := true, primitiveValue := .int (some 2),
        type := some "integer", isArray := false, indexedCount := none,
        valueAsString := none } := by
  constructor
  · intro vi
    refine ⟨fun h => ?_, fun h => ?_, fun h => ?_, fun h => ?_, fun h => ?_, fun h => ?_,
      fun h => ?_, fun h => ?_, ?_, ?_, ?_⟩
    · simp [mkVariable, h]
    · simp [mkVariable, h]
    · simp [mkVariable, h]
    · simp [mkVariable, h]
    · simp [mkVariable, h]
    · simp [mkVariable, h]
    · rcases h with h | h <;> simp [mkVariable, h]
    · simp only [List.mem_cons, List.mem_singleton, not_or] at h
      obtain ⟨h1, h2, h3, h4, h5, h6, h7, h8, -⟩ := h
      unfold mkVariable
      split <;> simp_all
    · unfold mkVariable
      split <;> simp_all
    · unfold mkVariable
      split <;> simp_all
    · unfold mkVariable
      split <;> simp_all
  · rfl

/-- C3 witness: the typing rules applied at concrete inputs — an integer
variable, an object with `indexedVariables`, and an opaque type. -/
theorem C3_variable_typing_rules_witness :
    (mkVariable { name := "n", value := "17", type := some "integer",
                  variablesReference := 0 }).primitiveValue = .int (some 17) ∧
    (mkVariable { name := "a", value := "[1]", type := some "object",
                  variablesReference := 3, indexedVariables := some 1 }).isArray = true ∧
    (mkVariable { name := "s", value := "Symbol()", type := some "symbol",
                  variablesReference := 0 }).valueAsString = some "Symbol()" := by
  refine ⟨?_, ?_, ?_⟩
  · exact (((C3_variable_typing_rules.1 _).2.1) rfl).2.trans (by rfl)
  · exact ((((C3_variable_typing_rules.1 _).2.2.2.2.2.2.1) (.inl rfl)).2.1).trans (by rfl)
  · exact (((C3_variable_typing_rules.1 _).2.2.2.2.2.2.2.1) (by decide)).2

/-! ## Helper lemmas: futures ledger and pending list -/

theorem lookup_settleFut_self (fs : List (Nat × FutState)) (seq : Nat) (v : FutState)
    (h : fs.lookup seq = some .waiting) : (settleFut fs seq v).lookup seq = some v := by
  induction fs with
  | nil => simp [List.lookup] at h
  | cons p t ih =>
    obtain ⟨k, f⟩ := p
    by_cases hk : k = seq
    · subst hk
      have hb : (k == k) = true := by simp
      simp only [List.lookup, hb] at h
      simp only [Option.some.injEq] at h
      subst h
      simp [settleFut, List.lookup, hb]
    · have hb : (seq == k) = false := by simp [Ne.symm hk]
      simp only [List.lookup, hb] at h
      simp only [settleFut, if_neg hk]
      simp only [List.lookup, hb]
      exact ih h

theorem lookup_settleFut_ne (fs : List (Nat × FutState)) (seq k : Nat) (v : FutState)
    (h : k ≠ seq) : (settleFut fs seq v).lookup k = fs.lookup k := by
  induction fs with
  | nil => simp [settleFut]
  | cons p t ih =>
    obtain ⟨k', f⟩ := p
    by_cases hk : k' = seq
    · subst hk
      have hb : (k == k') = false := by simp [h]
      simp only [settleFut, if_pos rfl]
      simp only [List.lookup, hb]
    · simp only [settleFut, if_neg hk]
      by_cases hkk : k = k'
      · subst hkk
        have hb : (k == k) = true := by simp
        simp only [List.lookup, hb]
      · have hb : (k == k') = false := by simp [hkk]
        simp only [List.lookup, hb]
        exact ih

theorem contains_filter_ne_self (l : List Nat) (x : Nat) :
    (l.filter (fun s => s != x)).contains x = false := by
  simp

theorem contains_filter_ne_other (l : List Nat) (x y : Nat) (h : y ≠ x) :
    (l.filter (fun s => s != x)).contains y = l.contains y := by
  simp [h]

/-- C4 counterexample: a response whose `error` field is present but equal
to the empty string *resolves* the pending future with the body — the
handler tests JS truthiness of `error`, and `""` is falsy — whereas the
claim as stated demands a rejection whenever the error field is not
absent. -/
theorem C4_counterexample :
    ((handleResponse (sendRequest initConn "evaluate")
        { request_seq := 1, error := some "", body := none }).futures.lookup 1) =
      some (.resolved none) ∧
    ∀ e : String, (some (FutState.resolved none) : Option FutState) ≠
      some (.rejectedRemote e) := by
  refine ⟨rfl, fun e h => ?_⟩
  simp at h

/-- C4 amended: for every inbound response envelope, the connection
settles exactly the pending future whose `request_seq` matches —
resolving it with the response body when the error field is absent *or
empty*, and rejecting it with the debuggee's error string when it is a
non-empty string — removes that pending entry, and leaves every other
pending request untouched; this holds when responses arrive in an order
different from the send order (no cross-talk), and a response whose
`request_seq` has no pending entry settles nothing. -/
theorem C4_response_correlation (st : ConnState) (r : RespMsg) :
    (st.pending.contains r.request_seq = true →
      (handleResponse st r).pending.contains r.request_seq = false ∧
      (∀ s, s ≠ r.request_seq →
        (handleResponse st r).pending.contains s = st.pending.contains s ∧
        (handleResponse st r).futures.lookup s = st.futures.lookup s) ∧
      (st.futures.lookup r.request_seq = some .waiting →
        (handleResponse st r).futures.lookup r.request_seq =
          some (if errTruthy r.error then .rejectedRemote (r.error.getD "")
                else .resolved r.body))) ∧
    (st.pending.contains r.request_seq = false → handleResponse st r = st) ∧
    (∀ r2 : RespMsg, r2.request_seq ≠ r.request_seq →
      st.pending.contains r.request_seq = true →
      st.futures.lookup r.request_seq = some .waiting →
      st.pending.contains r2.request_seq = true →
      st.futures.lookup r2.request_seq = some .waiting →
      (handleResponse (handleResponse st r2) r).futures.lookup r.request_seq =
        some (if errTruthy r.error then .rejectedRemote (r.error.getD "")
              else .resolved r.body) ∧
      (handleResponse (handleResponse st r2) r).futures.lookup r2.request_seq =
        some (if errTruthy r2.error then .rejectedRemote (r2.error.getD "")
              else .resolved r2.body)) := by
  have hpend : ∀ (s : ConnState) (rr : RespMsg), s.pending.contains rr.request_seq = true →
      (handleResponse s rr).pending = s.pending.filter (fun q => q != rr.request_seq) := by
    intro s rr hc
    unfold handleResponse
    rw [hc]
    by_cases he : errTruthy rr.error <;> simp [he]
  have hfut : ∀ (s : ConnState) (rr : RespMsg), s.pending.contains rr.request_seq = true →
      (handleResponse s rr).futures =
        settleFut s.futures rr.request_seq
          (if errTruthy rr.error then .rejectedRemote (rr.error.getD "")
           else .resolved rr.body) := by
    intro s rr hc
    unfold handleResponse
    rw [hc]
    by_cases he : errTruthy rr.error <;> simp [he]
  refine ⟨fun hc => ⟨?_, fun s hs => ⟨?_, ?_⟩, fun hw => ?_⟩, fun hc => ?_, ?_⟩
  · rw [hpend st r hc]
    exact contains_filter_ne_self _ _
  · rw [hpend st r hc]
    exact contains_filter_ne_other _ _ _ hs
  · rw [hfut st r hc]
    exact lookup_settleFut_ne _ _ _ _ hs
  · rw [hfut st r hc]
    exact lookup_settleFut_self _ _ _ hw
  · unfold handleResponse
    rw [hc]
    simp
  · intro r2 hne hc hw hc2 hw2
    have hc' : (handleResponse st r2).pending.contains r.request_seq = true := by
      rw [hpend st r2 hc2]
      rw [contains_filter_ne_other _ _ _ (fun hh => hne (Eq.symm hh))]
      exact hc
    constructor
    · rw [hfut _ r hc']
      refine lookup_settleFut_self _ _ _ ?_
      rw [hfut st r2 hc2]
      rw [lookup_settleFut_ne _ _ _ _ (fun hh => hne (Eq.symm hh))]
      exact hw
    · rw [hfut _ r hc']
      rw [lookup_settleFut_ne _ _ _ _ hne]
      rw [hfut st r2 hc2]
      exact lookup_settleFut_self _ _ _ hw2

/-- C4 witness: a two-request connection whose responses arrive in
reverse order — request 2's response (an error) arrives first, then
request 1's (a body) — and each future settles with its own outcome. -/
theorem C4_response_correlation_witness :
    (handleResponse (handleResponse (sendRequest (sendRequest initConn "a") "b")
        { request_seq := 2, error := some "boom" })
        { request_seq := 1, body := some Json.null }).futures.lookup 1 =
      some (.resolved (some Json.null)) ∧
    (handleResponse (handleResponse (sendRequest (sendRequest initConn "a") "b")
        { request_seq := 2, error := some "boom" })
        { request_seq := 1, body := some Json.null }).futures.lookup 2 =
      some (.rejectedRemote "boom") := by
  have h := (C4_response_correlation (sendRequest (sendRequest initConn "a") "b")
    { request_seq := 1, body := some Json.null }).2.2
    { request_seq := 2, error := some "boom" }
    (by decide) (by rfl) (by rfl) (by rfl) (by rfl)
  exact ⟨h.1, h.2⟩

theorem lookup_append_right {β : Type} (l1 l2 : List (Nat × β)) (k : Nat)
    (h : l1.lookup k = none) : (l1 ++ l2).lookup k = l2.lookup k := by
  induction l1 with
  | nil => rfl
  | cons p t ih =>
    obtain ⟨k', v'⟩ := p
    by_cases hk : k = k'
    · subst hk
      have hb : (k == k) = true := by simp
      simp only [List.lookup, hb] at h
      exact absurd h (by simp)
    · have hb : (k == k') = false := by simp [hk]
      simp only [List.lookup, hb] at h
      simp only [List.cons_append, List.lookup, hb]
      exact ih h

theorem lookup_append_left {β : Type} (l1 l2 : List (Nat × β)) (q : Nat)
    (h : ∀ p ∈ l2, q ≠ p.1) : (l1 ++ l2).lookup q = l1.lookup q := by
  induction l1 with
  | nil =>
    simp only [List.nil_append, List.lookup_nil]
    induction l2 with
    | nil => rfl
    | cons p t ih2 =>
      obtain ⟨k', v'⟩ := p
      have hb : (q == k') = false := by simp [h (k', v') (by simp)]
      simp only [List.lookup, hb]
      exact ih2 fun p hp => h p (by simp [hp])
  | cons p t ih =>
    obtain ⟨k', v'⟩ := p
    by_cases hk : q = k'
    · subst hk
      have hb : (q == q) = true := by simp
      simp only [List.cons_append, List.lookup, hb]
    · have hb : (q == k') = false := by simp [hk]
      simp only [List.cons_append, List.lookup, hb]
      exact ih

/-- C6: a request whose response never arrives rejects with the timeout
error carrying the `requestTimeout` at send time (default 10000 from the
constructor) when its timer fires; the connection remains open, a
matching response arriving after the timeout settles nothing and raises
nothing, and unrelated pending requests are unaffected. -/
theorem C6_timeout (st0 : ConnState) (cmd : String)
    (htimer : st0.timers.lookup st0.requestSeq = none)
    (hfut : st0.futures.lookup st0.requestSeq = none) :
    (fireTimeout (sendRequest st0 cmd) st0.requestSeq).futures.lookup st0.requestSeq =
      some (.rejectedTimeout st0.requestTimeout) ∧
    initConn.requestTimeout = 10000 ∧
    (fireTimeout (sendRequest st0 cmd) st0.requestSeq).pending.contains st0.requestSeq =
      false ∧
    (fireTimeout (sendRequest st0 cmd) st0.requestSeq).isOpen = st0.isOpen ∧
    (∀ r : RespMsg, r.request_seq = st0.requestSeq →
      handleResponse (fireTimeout (sendRequest st0 cmd) st0.requestSeq) r =
        fireTimeout (sendRequest st0 cmd) st0.requestSeq) ∧
    (∀ s, s ≠ st0.requestSeq →
      (fireTimeout (sendRequest st0 cmd) st0.requestSeq).futures.lookup s =
        (sendRequest st0 cmd).futures.lookup s ∧
      (fireTimeout (sendRequest st0 cmd) st0.requestSeq).pending.contains s =
        (sendRequest st0 cmd).pending.contains s) := by
  have hfutA : (sendRequest st0 cmd).futures.lookup st0.requestSeq = some .waiting := by
    simp only [sendRequest]
    rw [lookup_append_right _ _ _ hfut]
    simp [List.lookup]
  have htimA : (sendRequest st0 cmd).timers.lookup st0.requestSeq =
      some st0.requestTimeout := by
    simp only [sendRequest]
    rw [lookup_append_right _ _ _ htimer]
    simp [List.lookup]
  have hT : fireTimeout (sendRequest st0 cmd) st0.requestSeq =
      { sendRequest st0 cmd with
        futures := settleFut (sendRequest st0 cmd).futures st0.requestSeq
          (.rejectedTimeout st0.requestTimeout)
        pending := (sendRequest st0 cmd).pending.filter
          (fun s => s != st0.requestSeq) } := by
    unfold fireTimeout
    rw [hfutA, htimA]
    rfl
  have hpendT : (fireTimeout (sendRequest st0 cmd) st0.requestSeq).pending.contains
      st0.requestSeq = false := by
    rw [hT]
    exact contains_filter_ne_self _ _
  refine ⟨?_, rfl, hpendT, ?_, ?_, ?_⟩
  · rw [hT]
    exact lookup_settleFut_self _ _ _ hfutA
  · rw [hT]
    rfl
  · intro r hr
    unfold handleResponse
    rw [hr, hpendT]
    simp
  · intro s hs
    rw [hT]
    exact ⟨lookup_settleFut_ne _ _ _ _ hs, contains_filter_ne_other _ _ _ hs⟩

/-- C6 witness: the fresh connection with the default timeout — the
single request times out with `10000`, the late matching response is
dropped, the connection stays open. -/
theorem C6_timeout_witness :
    (fireTimeout (sendRequest initConn "evaluate") 1).futures.lookup 1 =
      some (.rejectedTimeout 10000) ∧
    handleResponse (fireTimeout (sendRequest initConn "evaluate") 1)
      { request_seq := 1, body := some Json.null } =
      fireTimeout (sendRequest initConn "evaluate") 1 ∧
    (fireTimeout (sendRequest initConn "evaluate") 1).isOpen = true := by
  have h := C6_timeout initConn "evaluate" rfl rfl
  exact ⟨h.1, h.2.2.2.2.1 { request_seq := 1, body := some Json.null } rfl, h.2.2.2.1⟩

theorem rejectAll_state_inv (st : ConnState) (l : List Nat) :
    (rejectAll st l).1.pending = st.pending ∧
    (rejectAll st l).1.endCount = st.endCount ∧
    (rejectAll st l).1.wire = st.wire ∧
    (rejectAll st l).1.requestSeq = st.requestSeq ∧
    (rejectAll st l).1.isOpen = st.isOpen := by
  induction l generalizing st with
  | nil => exact ⟨rfl, rfl, rfl, rfl, rfl⟩
  | cons s rest ih => exact ih _

theorem rejectAll_obs (st : ConnState) (l : List Nat) :
    ((rejectAll st l).2.map RejectObs.seq = l) ∧
    (∀ ob ∈ (rejectAll st l).2,
      ob.msg = "Protocol is closed" ∧ ob.pendingAtCall = st.pending) := by
  induction l generalizing st with
  | nil => exact ⟨rfl, by simp [rejectAll]⟩
  | cons s rest ih =>
    refine ⟨?_, ?_⟩
    · simp only [rejectAll, List.map_cons]
      rw [(ih _).1]
    · intro ob hob
      simp only [rejectAll, List.mem_cons] at hob
      rcases hob with hob | hob
      · subst hob
        exact ⟨rfl, rfl⟩
      · exact (ih { st with futures := settleFut st.futures s (FutState.rejectedClosed "Protocol is closed") }).2 ob hob

theorem rejectAll_lookup_notin (st : ConnState) (l : List Nat) (s : Nat) (h : s ∉ l) :
    (rejectAll st l).1.futures.lookup s = st.futures.lookup s := by
  induction l generalizing st with
  | nil => rfl
  | cons q rest ih =>
    simp only [List.mem_cons, not_or] at h
    simp only [rejectAll]
    rw [ih _ h.2]
    exact lookup_settleFut_ne _ _ _ _ h.1

theorem rejectAll_futures (st : ConnState) (l : List Nat) (hnd : l.Nodup)
    (hw : ∀ s ∈ l, st.futures.lookup s = some .waiting) :
    ∀ s ∈ l, (rejectAll st l).1.futures.lookup s =
      some (.rejectedClosed "Protocol is closed") := by
  induction l generalizing st with
  | nil => intro s hs; exact absurd hs (by simp)
  | cons q rest ih =>
    intro s hs
    have hndr := (List.nodup_cons.mp hnd).2
    have hqnot := (List.nodup_cons.mp hnd).1
    simp only [List.mem_cons] at hs
    rcases hs with hs | hs
    · subst hs
      simp only [rejectAll]
      rw [rejectAll_lookup_notin _ _ _ hqnot]
      exact lookup_settleFut_self _ _ _ (hw s (by simp))
    · simp only [rejectAll]
      refine ih _ hndr (fun s' hs' => ?_) s hs
      rw [lookup_settleFut_ne _ _ _ _ (fun hh => hqnot (by rw [hh] at hs'; exact hs'))]
      exact hw s' (by simp [hs'])

/-- C7: when the stream ends while K requests are pending, the connection
emits the `end` event exactly once, clears the pending map before
invoking any rejecter (each rejecter observes an empty map, so it cannot
observe or disturb a stale entry), and rejects each of the K pending
futures exactly once with the `Protocol is closed` error. -/
theorem C7_stream_end (st : ConnState) (hnd : st.pending.Nodup)
    (hw : ∀ s ∈ st.pending, st.futures.lookup s = some .waiting) :
    (handleEnd st).1.endCount = st.endCount + 1 ∧
    (handleEnd st).2.map RejectObs.seq = st.pending ∧
    ((handleEnd st).2.map RejectObs.seq).Nodup ∧
    (∀ ob ∈ (handleEnd st).2,
      ob.msg = "Protocol is closed" ∧ ob.pendingAtCall = []) ∧
    (∀ s ∈ st.pending, (handleEnd st).1.futures.lookup s =
      some (.rejectedClosed "Protocol is closed")) ∧
    (handleEnd st).1.pending = [] := by
  have hEc : (handleEnd st).1.endCount = (rejectAll (endInner st) st.pending).1.endCount := rfl
  have hObs : (handleEnd st).2 = (rejectAll (endInner st) st.pending).2 := rfl
  have hFut : (handleEnd st).1.futures = (rejectAll (endInner st) st.pending).1.futures := rfl
  have hPend : (handleEnd st).1.pending = [] := rfl
  refine ⟨?_, ?_, ?_, ?_, ?_, hPend⟩
  · rw [hEc, (rejectAll_state_inv _ _).2.1]
    rfl
  · rw [hObs]
    exact (rejectAll_obs _ _).1
  · rw [hObs, (rejectAll_obs _ _).1]
    exact hnd
  · intro ob hob
    rw [hObs] at hob
    have h2 := (rejectAll_obs (endInner st) st.pending).2 ob hob
    exact ⟨h2.1, h2.2⟩
  · intro s hs
    rw [hFut]
    exact rejectAll_futures (endInner st) _ hnd (fun s' hs' => hw s' hs') s hs

/-- C7 witness: the stream ends with two pending requests; both futures
reject with `Protocol is closed`, the rejecters see an empty map, and
`end` is emitted once. -/
theorem C7_stream_end_witness :
    (handleEnd (sendRequest (sendRequest initConn "a") "b")).1.endCount = 1 ∧
    (handleEnd (sendRequest (sendRequest initConn "a") "b")).2.map RejectObs.seq =
      [1, 2] ∧
    (∀ ob ∈ (handleEnd (sendRequest (sendRequest initConn "a") "b")).2,
      ob.msg = "Protocol is closed" ∧ ob.pendingAtCall = []) ∧
    (handleEnd (sendRequest (sendRequest initConn "a") "b")).1.futures.lookup 1 =
      some (.rejectedClosed "Protocol is closed") := by
  have hp : (sendRequest (sendRequest initConn "a") "b").pending = [1, 2] := rfl
  have h := C7_stream_end (sendRequest (sendRequest initConn "a") "b")
    (by rw [hp]; decide)
    (by
      intro s hs
      rw [hp] at hs
      simp only [List.mem_cons, List.not_mem_nil, or_false] at hs
      rcases hs with hs | hs <;> subst hs <;> rfl)
  refine ⟨h.1, by rw [h.2.1, hp], h.2.2.2.1, h.2.2.2.2.1 1 (by rw [hp]; simp)⟩

theorem handleResponse_wire_seq (st : ConnState) (r : RespMsg) :
    (handleResponse st r).wire = st.wire ∧ (handleResponse st r).requestSeq = st.requestSeq := by
  unfold handleResponse
  split
  · split <;> exact ⟨rfl, rfl⟩
  · exact ⟨rfl, rfl⟩

theorem fireTimeout_wire_seq (st : ConnState) (seq : Nat) :
    (fireTimeout st seq).wire = st.wire ∧ (fireTimeout st seq).requestSeq = st.requestSeq := by
  unfold fireTimeout
  split <;> exact ⟨rfl, rfl⟩

theorem handleEnd_wire_seq (st : ConnState) :
    (handleEnd st).1.wire = st.wire ∧ (handleEnd st).1.requestSeq = st.requestSeq := by
  have hw : (handleEnd st).1.wire = (rejectAll (endInner st) st.pending).1.wire := rfl
  have hs : (handleEnd st).1.requestSeq = (rejectAll (endInner st) st.pending).1.requestSeq := rfl
  rw [hw, hs, (rejectAll_state_inv _ _).2.2.1, (rejectAll_state_inv _ _).2.2.2.1]
  exact ⟨rfl, rfl⟩

theorem wireRequestSeqs_append (w1 w2 : List WireMsg) :
    wireRequestSeqs (w1 ++ w2) = wireRequestSeqs w1 ++ wireRequestSeqs w2 := by
  simp [wireRequestSeqs]

theorem runConn_wire_seqs (acts : List CAct) (st : ConnState) :
    wireRequestSeqs (runConn st acts).wire =
      wireRequestSeqs st.wire ++ List.range' st.requestSeq (countSends acts) ∧
    (runConn st acts).requestSeq = st.requestSeq + countSends acts := by
  induction acts generalizing st with
  | nil => simp [runConn, countSends]
  | cons a acts ih =>
    cases a with
    | send c =>
      have h := ih (sendRequest st c)
      have hw : (sendRequest st c).wire = st.wire ++ [.request st.requestSeq c] := rfl
      have hseq : (sendRequest st c).requestSeq = st.requestSeq + 1 := rfl
      have hrun : runConn st (.send c :: acts) = runConn (sendRequest st c) acts := rfl
      have hcount : countSends (.send c :: acts) = countSends acts + 1 := rfl
      rw [hrun, hcount]
      constructor
      · rw [h.1, hw, hseq, wireRequestSeqs_append]
        have hone : wireRequestSeqs [.request st.requestSeq c] = [st.requestSeq] := rfl
        rw [hone, List.range'_succ st.requestSeq (countSends acts) 1]
        simp
      · rw [h.2, hseq]
        omega
    | sendEnv t =>
      have h := ih (sendEnvelopeConn st t)
      have hw : (sendEnvelopeConn st t).wire = st.wire ++ [.envelope t] := rfl
      have hrun : runConn st (.sendEnv t :: acts) = runConn (sendEnvelopeConn st t) acts := rfl
      have hcount : countSends (.sendEnv t :: acts) = countSends acts := rfl
      rw [hrun, hcount]
      constructor
      · rw [h.1, hw, wireRequestSeqs_append]
        have hnone : wireRequestSeqs [WireMsg.envelope t] = [] := rfl
        rw [hnone]
        simp
        exact Or.inr rfl
      · exact h.2
    | recv r =>
      have h := ih (handleResponse st r)
      have hrun : runConn st (.recv r :: acts) = runConn (handleResponse st r) acts := rfl
      have hcount : countSends (.recv r :: acts) = countSends acts := rfl
      rw [hrun, hcount]
      rw [h.1, h.2, (handleResponse_wire_seq st r).1, (handleResponse_wire_seq st r).2]
      exact ⟨rfl, rfl⟩
    | fire s =>
      have h := ih (fireTimeout st s)
      have hrun : runConn st (.fire s :: acts) = runConn (fireTimeout st s) acts := rfl
      have hcount : countSends (.fire s :: acts) = countSends acts := rfl
      rw [hrun, hcount]
      rw [h.1, h.2, (fireTimeout_wire_seq st s).1, (fireTimeout_wire_seq st s).2]
      exact ⟨rfl, rfl⟩
    | streamEnd =>
      have h := ih (handleEnd st).1
      have hrun : runConn st (.streamEnd :: acts) = runConn (handleEnd st).1 acts := rfl
      have hcount : countSends (.streamEnd :: acts) = countSends acts := rfl
      rw [hrun, hcount]
      rw [h.1, h.2, (handleEnd_wire_seq st).1, (handleEnd_wire_seq st).2]
      exact ⟨rfl, rfl⟩

/-- C5: across any sequence of actions containing N `sendRequest` calls on
one connection, the `request_seq` values emitted on the wire are exactly
the integers 1..N, assigned in call order with no repeats, and the
sequence counter never resets within the lifetime of the connection
(after any prefix, the counter equals 1 + the number of sends so far). -/
theorem C5_request_seq_monotonic (acts : List CAct) :
    wireRequestSeqs (runConn initConn acts).wire = List.range' 1 (countSends acts) ∧
    (wireRequestSeqs (runConn initConn acts).wire).Nodup ∧
    (runConn initConn acts).requestSeq = 1 + countSends acts ∧
    ∀ l1 l2 : List CAct, acts = l1 ++ l2 →
      (runConn initConn l1).requestSeq = 1 + countSends l1 := by
  have h := runConn_wire_seqs acts initConn
  have hinit : wireRequestSeqs initConn.wire = [] := rfl
  refine ⟨?_, ?_, h.2, ?_⟩
  · rw [h.1, hinit]
    simp
    exact Or.inr rfl
  · rw [h.1, hinit]
    simp [List.nodup_range']
  · intro l1 l2 _
    exact (runConn_wire_seqs l1 initConn).2

/-- Memoisation: `inspectStep` on a non-primitive handle whose reference
is already mapped returns exactly the mapped value with the state
untouched, whatever the expansion continuation. -/
theorem inspectStep_memo (h : Handle) (st : InspectSt)
    (expand : Handle → InspectSt → IVal × InspectSt) (v : IVal)
    (hp : h.primitive = false) (hlk : List.lookup h.ref st.refMap = some v) :
    inspectStep h st expand = (v, st) := by
  unfold inspectStep
  rw [hp, hlk]

/-- Unfolding equation of `inspectInternal` (definitional once the depth
is split into its constructors). -/
theorem inspectInternal_eq (env : Env) (pr : Bool) (depth : Nat) (h : Handle)
    (st : InspectSt) :
    inspectInternal env pr depth h st =
      inspectStep h st fun h' st' =>
        if h'.type = some "object" then
          match depth with
          | d + 1 => inspectExpand env pr (fun h2 s2 => inspectInternal env pr d h2 s2) h' st'
          | 0 => (.vstr h'.render, st')
        else (.vstr h'.render, st') := by
  cases depth <;> exact rfl

/-- C1: within a single `inspect` call, every occurrence of an already
materialised `variables` reference resolves to the identical container —
the freshly created container is inserted into the per-call
`referenceMap` under its `ref` before its children are fetched, so a
non-primitive handle whose `ref` is in the map returns exactly the mapped
container and leaves the state untouched; `inspect` is a total function
of this model, so it terminates on cyclic graphs, and on the two-node
cycle `A.next = B; B.prev = A`, `inspect(A, {maxDepth: 16})` returns the
container at arena index 0 whose `next.prev` is that same index-0
container. -/
theorem C1_inspect_cycle_identity :
    (∀ (env : Env) (pr : Bool) (d : Nat) (h : Handle) (st : InspectSt) (v : IVal),
      h.primitive = false → List.lookup h.ref st.refMap = some v →
      inspectInternal env pr d h st = (v, st)) ∧
    (inspect cycleEnv cycleHandleA (some { maxDepth := some 16 })).1 = .node 0 ∧
    ((inspect cycleEnv cycleHandleA (some { maxDepth := some 16 })).2.arena[0]?).bind
      (fun nd => nd.field "next") = some (.node 1) ∧
    ((inspect cycleEnv cycleHandleA (some { maxDepth := some 16 })).2.arena[1]?).bind
      (fun nd => nd.field "prev") = some (.node 0) := by
  refine ⟨?_, rfl, rfl, rfl⟩
  intro env pr d h st v hp hlk
  rw [inspectInternal_eq]
  exact inspectStep_memo _ _ _ _ hp hlk

/-- C1 witness: the memoisation branch applied at a concrete input — a
non-primitive handle whose reference is already in the reference map
materialises to exactly the mapped value with the state unchanged. -/
theorem C1_inspect_cycle_identity_witness :
    inspectInternal emptyEnv false 3 cycleHandleA ⟨[], [(1, .vstr "seen")]⟩ =
      (.vstr "seen", ⟨[], [(1, .vstr "seen")]⟩) :=
  C1_inspect_cycle_identity.1 emptyEnv false 3 cycleHandleA ⟨[], [(1, .vstr "seen")]⟩
    (.vstr "seen") rfl rfl

/-! ## Frame-header lemmas (towards C2) -/

theorem hexDigitVal_hexDigitByte (d : Nat) (h : d < 16) :
    hexDigitVal (hexDigitByte d) = some d := by
  interval_cases d <;> rfl

theorem hexDigitByte_facts (d : Nat) (h : d < 16) :
    isWsByte (hexDigitByte d) = false ∧ hexDigitByte d ≠ 45 ∧ hexDigitByte d ≠ 43 ∧
    hexDigitByte d ≠ 120 ∧ hexDigitByte d ≠ 88 := by
  interval_cases d <;> decide

theorem digitsToNat_cons_acc (b : Nat) (acc : Nat) (ds : List Nat) :
    List.foldl (fun a d => a * b + d) acc ds = acc * b ^ ds.length + digitsToNat b ds := by
  induction ds generalizing acc with
  | nil => simp [digitsToNat]
  | cons d ds ih =>
    simp only [List.foldl_cons, List.length_cons, digitsToNat]
    rw [ih (acc * b + d), ih (0 * b + d)]
    ring

theorem digitsToNat_append_one (b : Nat) (ds : List Nat) (d : Nat) :
    digitsToNat b (ds ++ [d]) = digitsToNat b ds * b + d := by
  unfold digitsToNat
  rw [List.foldl_append]
  rfl

theorem digitsToNat_replicate_zero (b : Nat) (k : Nat) (ds : List Nat) :
    digitsToNat b (List.replicate k 0 ++ ds) = digitsToNat b ds := by
  induction k with
  | zero => rfl
  | succ k ih =>
    rw [List.replicate_succ, List.cons_append]
    unfold digitsToNat at ih ⊢
    simpa using ih

theorem natHexDigitsAux_spec (fuel : Nat) : ∀ n, n ≤ fuel →
    (∀ d ∈ natHexDigitsAux fuel n, d < 16) ∧
    natHexDigitsAux fuel n ≠ [] ∧
    digitsToNat 16 (natHexDigitsAux fuel n) = n := by
  induction fuel with
  | zero =>
    intro n h
    have hn : n = 0 := by omega
    subst hn
    exact ⟨by intro d hd; simp [natHexDigitsAux] at hd; omega, by simp [natHexDigitsAux],
      by simp [natHexDigitsAux, digitsToNat]⟩
  | succ fuel ih =>
    intro n h
    by_cases hlt : n < 16
    · refine ⟨?_, by simp [natHexDigitsAux, hlt], ?_⟩
      · intro d hd
        simp [natHexDigitsAux, hlt] at hd
        omega
      · simp [natHexDigitsAux, hlt, digitsToNat]
    · have hdiv : n / 16 ≤ fuel := by
        have := Nat.div_lt_self (show 0 < n by omega) (show 1 < 16 by omega)
        omega
      have hI := ih (n / 16) hdiv
      refine ⟨?_, ?_, ?_⟩
      · intro d hd
        simp only [natHexDigitsAux, if_neg hlt, List.mem_append, List.mem_singleton] at hd
        rcases hd with hd | hd
        · exact hI.1 d hd
        · subst hd
          omega
      · simp [natHexDigitsAux, hlt]
      · simp only [natHexDigitsAux, if_neg hlt]
        rw [digitsToNat_append_one, hI.2.2]
        omega

theorem natHexDigitsAux_length (fuel : Nat) : ∀ n k, n ≤ fuel → 1 ≤ k → n < 16 ^ k →
    (natHexDigitsAux fuel n).length ≤ k := by
  induction fuel with
  | zero =>
    intro n k _ hk _
    simp only [natHexDigitsAux, List.length_singleton]
    omega
  | succ fuel ih =>
    intro n k h hk hpow
    by_cases hlt : n < 16
    · simp only [natHexDigitsAux, if_pos hlt, List.length_singleton]
      omega
    · obtain ⟨m, rfl⟩ : ∃ m, k = m + 1 := ⟨k - 1, by omega⟩
      have hm : 1 ≤ m := by
        rcases Nat.eq_zero_or_pos m with hm | hm
        · subst hm
          simp at hpow
          omega
        · exact hm
      have hdivf : n / 16 ≤ fuel := by
        have := Nat.div_lt_self (show 0 < n by omega) (show 1 < 16 by omega)
        omega
      have hdivpow : n / 16 < 16 ^ m := by
        rw [Nat.div_lt_iff_lt_mul (by omega)]
        calc n < 16 ^ (m + 1) := hpow
        _ = 16 ^ m * 16 := by rw [pow_succ]
      simp only [natHexDigitsAux, if_neg hlt, List.length_append, List.length_singleton]
      have := ih (n / 16) m hdivf hm hdivpow
      omega

theorem skipWs_cons_nonws (b : Nat) (r : List Nat) (h : isWsByte b = false) :
    skipWs (b :: r) = b :: r := by
  simp [skipWs, h]

theorem takeHexDigits_digits (ds : List Nat) (rest : List Nat)
    (hd : ∀ d ∈ ds, d < 16)
    (hstop : ∀ b, rest.head? = some b → hexDigitVal b = none) :
    takeHexDigits (ds.map hexDigitByte ++ rest) = (ds, rest) := by
  induction ds with
  | nil =>
    cases rest with
    | nil => rfl
    | cons b r =>
      have hb := hstop b rfl
      simp [takeHexDigits, hb]
  | cons d ds ih =>
    have hdv := hexDigitVal_hexDigitByte d (hd d (by simp))
    simp only [List.map_cons, List.cons_append, takeHexDigits, hdv, List.append_eq]
    rw [ih (fun d' hd' => hd d' (by simp [hd'])) ]

theorem padHex8_eq (n : Nat) :
    padHex8 n =
      (List.replicate (8 - (natHexDigits n).length) 0 ++ natHexDigits n).map hexDigitByte := by
  unfold padHex8 natHexBytes
  rw [List.map_append, List.map_replicate, List.length_map]
  exact rfl

theorem hexParse_padHex8 (n : Nat) (h : n < 16 ^ 8) :
    hexParse (padHex8 n ++ [10]) = some n := by
  have hspec := natHexDigitsAux_spec n n (le_refl n)
  have hlen := natHexDigitsAux_length n n 8 (le_refl n) (by omega) h
  have hvall : ∀ d ∈ List.replicate (8 - (natHexDigits n).length) 0 ++ natHexDigits n,
      d < 16 := by
    intro d hd
    simp only [List.mem_append, List.mem_replicate] at hd
    rcases hd with hd | hd
    · omega
    · exact hspec.1 d hd
  have hvlen : (List.replicate (8 - (natHexDigits n).length) 0 ++ natHexDigits n).length =
      8 := by
    simp only [List.length_append, List.length_replicate]
    have : (natHexDigits n).length ≤ 8 := hlen
    omega
  have hvval :
      digitsToNat 16 (List.replicate (8 - (natHexDigits n).length) 0 ++ natHexDigits n) =
        n := by
    rw [digitsToNat_replicate_zero]
    exact hspec.2.2
  rw [padHex8_eq]
  generalize hg : List.replicate (8 - (natHexDigits n).length) 0 ++ natHexDigits n = vs
    at hvall hvlen hvval ⊢
  obtain ⟨v0, v1, vrest, hvform⟩ : ∃ v0 v1 vrest, vs = v0 :: v1 :: vrest := by
    cases vs with
    | nil => simp at hvlen
    | cons a t =>
      cases t with
      | nil => simp at hvlen
      | cons a2 t2 => exact ⟨a, a2, t2, rfl⟩
  have hv0 : v0 < 16 := hvall v0 (by simp [hvform])
  have hv1 : v1 < 16 := hvall v1 (by simp [hvform])
  have hf0 := hexDigitByte_facts v0 hv0
  have hf1 := hexDigitByte_facts v1 hv1
  rw [hvform]
  simp only [List.map_cons, List.cons_append]
  unfold hexParse
  rw [skipWs_cons_nonws _ _ hf0.1]
  simp only [if_neg hf0.2.1, if_neg hf0.2.2.1]
  unfold hexDigitsParse
  simp only
  have hc : ¬ (hexDigitByte v0 = 48 ∧ (hexDigitByte v1 = 120 ∨ hexDigitByte v1 = 88)) := by
    rintro ⟨h48, h1⟩
    rcases h1 with h1 | h1
    · exact hf1.2.2.2.1 h1
    · exact hf1.2.2.2.2 h1
  rw [if_neg hc]
  have htake := takeHexDigits_digits (v0 :: v1 :: vrest) [10]
    (by rw [← hvform]; exact hvall) (by intro b hb; simp at hb; subst hb; rfl)
  simp only [List.map_cons, List.cons_append] at htake
  rw [htake]
  simp [← hvform, hvval]
  simp [hvform]

theorem padHex8_length (n : Nat) (h : n < 16 ^ 8) : (padHex8 n).length = 8 := by
  rw [padHex8_eq]
  simp only [List.length_map, List.length_append, List.length_replicate]
  have := natHexDigitsAux_length n n 8 (le_refl n) (by omega) h
  unfold natHexDigits
  omega

/-! ## Framing state-machine lemmas (towards C2) -/

theorem FState.push_append (s : FState) (a b : List Nat) :
    s.push (a ++ b) = (s.push a).push b := by
  cases s <;> simp [FState.push]

theorem FState.push_nil (s : FState) : s.push [] = s := by
  cases s <;> simp [FState.push]

/-- The residual state of a drain is quiescent: draining again delivers
nothing and leaves it unchanged. -/
theorem drain_stuck (buf : List Nat) : drain (.stuck buf) = ([], .stuck buf) := by
  rw [drain.eq_def]

theorem drain_len_short (buf : List Nat) (h : buf.length < 9) :
    drain (.len buf) = ([], .len buf) := by
  rw [drain.eq_def]
  simp [h]

theorem drain_len_some (buf : List Nat) (h : ¬ buf.length < 9) (d : Nat)
    (hd : hexParse (buf.take 9) = some d) :
    drain (.len buf) = drain (.content d (buf.drop 9)) := by
  rw [drain.eq_def]
  simp [if_neg h, hd]

theorem drain_len_none (buf : List Nat) (h : ¬ buf.length < 9)
    (hd : hexParse (buf.take 9) = none) :
    drain (.len buf) = ([], .stuck (buf.drop 9)) := by
  rw [drain.eq_def]
  simp [if_neg h, hd]

theorem drain_content_short (n : Nat) (buf : List Nat) (h : buf.length < n) :
    drain (.content n buf) = ([], .content n buf) := by
  rw [drain.eq_def]
  simp [h]

theorem drain_content_go (n : Nat) (buf : List Nat) (h : ¬ buf.length < n) :
    drain (.content n buf) =
      (buf.take n :: (drain (.len (buf.drop n))).1, (drain (.len (buf.drop n))).2) := by
  rw [drain.eq_def]
  simp [if_neg h]

theorem drain_fix (s : FState) : drain (drain s).2 = ([], (drain s).2) := by
  induction s using drain.induct with
  | case1 buf =>
    rw [drain_stuck]
    exact drain_stuck buf
  | case2 buf h =>
    rw [drain_len_short buf h]
    exact drain_len_short buf h
  | case3 buf h d hd ih =>
    rw [drain_len_some buf h d hd]
    exact ih
  | case4 buf h hd =>
    rw [drain_len_none buf h hd]
    exact drain_stuck _
  | case5 n buf h =>
    rw [drain_content_short n buf h]
    exact drain_content_short n buf h
  | case6 n buf h ih =>
    rw [drain_content_go n buf h]
    exact ih

/-- Draining after appending more bytes is draining now and then draining
the residual with the extra bytes: the `while` loop processes greedily,
so chunk boundaries are invisible. -/
theorem drain_push (s : FState) (extra : List Nat) :
    drain (s.push extra) =
      ((drain s).1 ++ (drain ((drain s).2.push extra)).1,
        (drain ((drain s).2.push extra)).2) := by
  induction s using drain.induct with
  | case1 buf =>
    have hL : (FState.stuck buf).push extra = FState.stuck (buf ++ extra) := rfl
    rw [hL, drain_stuck buf]
    simp only [FState.push, drain_stuck, List.nil_append]
  | case2 buf h =>
    rw [drain_len_short buf h]
    simp only [FState.push, List.nil_append]
  | case3 buf h d hd ih =>
    have hlen : ¬ (buf ++ extra).length < 9 := by
      simp only [List.length_append]
      omega
    have htake : (buf ++ extra).take 9 = buf.take 9 :=
      List.take_append_of_le_length (by omega)
    have hdrop : (buf ++ extra).drop 9 = buf.drop 9 ++ extra :=
      List.drop_append_of_le_length (by omega)
    have hL : (FState.len buf).push extra = FState.len (buf ++ extra) := rfl
    rw [hL, drain_len_some (buf ++ extra) hlen d (htake ▸ hd), hdrop,
      drain_len_some buf h d hd]
    exact ih
  | case4 buf h hd =>
    have hlen : ¬ (buf ++ extra).length < 9 := by
      simp only [List.length_append]
      omega
    have htake : (buf ++ extra).take 9 = buf.take 9 :=
      List.take_append_of_le_length (by omega)
    have hdrop : (buf ++ extra).drop 9 = buf.drop 9 ++ extra :=
      List.drop_append_of_le_length (by omega)
    have hL : (FState.len buf).push extra = FState.len (buf ++ extra) := rfl
    rw [hL, drain_len_none (buf ++ extra) hlen (htake ▸ hd), hdrop,
      drain_len_none buf h hd]
    simp only [FState.push, drain_stuck, List.nil_append]
  | case5 n buf h =>
    rw [drain_content_short n buf h]
    simp only [FState.push, List.nil_append]
  | case6 n buf h ih =>
    have hlen : ¬ (buf ++ extra).length < n := by
      simp only [List.length_append]
      omega
    have htake : (buf ++ extra).take n = buf.take n :=
      List.take_append_of_le_length (by omega)
    have hdrop : (buf ++ extra).drop n = buf.drop n ++ extra :=
      List.drop_append_of_le_length (by omega)
    have hL : (FState.content n buf).push extra = FState.content n (buf ++ extra) := rfl
    rw [hL, drain_content_go n (buf ++ extra) hlen, htake, hdrop,
      drain_content_go n buf h]
    have hC : FState.len (buf.drop n ++ extra) = (FState.len (buf.drop n)).push extra := rfl
    rw [hC, ih]
    simp

/-- Draining a complete packet delivers exactly its body and returns to
the initial state. -/
theorem drain_packet (body : List Nat) (h : body.length < 16 ^ 8) :
    drain (.len (padHex8 body.length ++ 10 :: body)) = ([body], .len []) := by
  have hplen := padHex8_length body.length h
  have hlen : ¬ (padHex8 body.length ++ 10 :: body).length < 9 := by
    simp only [List.length_append, List.length_cons, hplen]
    omega
  have htake : (padHex8 body.length ++ 10 :: body).take 9 = padHex8 body.length ++ [10] := by
    rw [show (9 : Nat) = (padHex8 body.length).length + 1 from by rw [hplen]]
    rw [List.take_append]
    rfl
  have hdrop : (padHex8 body.length ++ 10 :: body).drop 9 = body := by
    rw [show (9 : Nat) = (padHex8 body.length).length + 1 from by rw [hplen]]
    rw [List.drop_append]
    rfl
  rw [drain_len_some _ hlen body.length
    (by rw [htake]; exact hexParse_padHex8 body.length h)]
  rw [hdrop]
  rw [drain_content_go body.length body (by omega)]
  rw [List.take_length, List.drop_length]
  rw [drain_len_short [] (by simp)]

/-! ## JSON number round trip (towards C2) -/

theorem natDecDigitsAux_spec (fuel : Nat) : ∀ n, n ≤ fuel →
    ∃ d ds, natDecDigitsAux fuel n = d :: ds ∧ d < 10 ∧ (∀ x ∈ ds, x < 10) ∧
      digitsToNat 10 (natDecDigitsAux fuel n) = n ∧ (1 ≤ n → d ≠ 0) ∧
      (10 ≤ n → ds ≠ []) := by
  induction fuel with
  | zero =>
    intro n h
    have hn : n = 0 := by omega
    subst hn
    exact ⟨0, [], rfl, by omega, by simp, by simp [natDecDigitsAux, digitsToNat], by omega,
      by omega⟩
  | succ fuel ih =>
    intro n h
    by_cases hlt : n < 10
    · refine ⟨n, [], by simp [natDecDigitsAux, hlt], hlt, by simp, ?_, fun h1 => by omega,
        by omega⟩
      simp [natDecDigitsAux, hlt, digitsToNat]
    · have hdiv : n / 10 ≤ fuel := by
        have := Nat.div_lt_self (show 0 < n by omega) (show 1 < 10 by omega)
        omega
      obtain ⟨d, ds, heq, hd10, hds10, hval, hdne, -⟩ := ih (n / 10) hdiv
      refine ⟨d, ds ++ [n % 10], ?_, hd10, ?_, ?_, ?_, ?_⟩
      · simp only [natDecDigitsAux, if_neg hlt, heq, List.cons_append]
      · intro x hx
        simp only [List.mem_append, List.mem_singleton] at hx
        rcases hx with hx | hx
        · exact hds10 x hx
        · subst hx
          omega
      · simp only [natDecDigitsAux, if_neg hlt]
        rw [digitsToNat_append_one, hval]
        omega
      · intro _
        exact hdne (by omega)
      · intro _
        simp

theorem isDigitByte_add48 (d : Nat) (h : d < 10) : isDigitByte (48 + d) = true := by
  unfold isDigitByte
  simp only [Bool.and_eq_true, decide_eq_true_eq]
  omega

theorem takeDigits_digits (ds : List Nat) (rest : List Nat)
    (hd : ∀ d ∈ ds, d < 10)
    (hstop : ∀ b, rest.head? = some b → isDigitByte b = false) :
    takeDigits (ds.map (48 + ·) ++ rest) = (ds.map (48 + ·), rest) := by
  induction ds with
  | nil =>
    cases rest with
    | nil => rfl
    | cons b r =>
      have hb := hstop b rfl
      simp [takeDigits, hb]
  | cons d ds ih =>
    have hdig := isDigitByte_add48 d (hd d (by simp))
    simp only [List.map_cons, List.cons_append, takeDigits, hdig, if_pos, List.append_eq]
    rw [ih (fun d' hd' => hd d' (by simp [hd'])) ]

theorem numStop_no_digit (rest : List Nat) (h : numStop rest = true) :
    ∀ b, rest.head? = some b → isDigitByte b = false := by
  intro b hb
  cases rest with
  | nil => simp at hb
  | cons b0 r =>
    simp only [List.head?_cons, Option.some.injEq] at hb
    subst hb
    simp only [numStop, Bool.not_eq_eq_eq_not, Bool.not_true, Bool.or_eq_false_iff] at h
    exact h.1.1.1

theorem map_sub48_add48 (ds : List Nat) : (ds.map (48 + ·)).map (· - 48) = ds := by
  rw [List.map_map]
  have : ((· - 48) ∘ (48 + ·) : Nat → Nat) = id := by
    funext d
    simp

  rw [this, List.map_id]

theorem natDecBytes_head (n : Nat) :
    ∃ d t, natDecBytes n = (48 + d) :: t ∧ d < 10 ∧ (1 ≤ n → d ≠ 0) := by
  obtain ⟨d, ds, heq, hd10, -, -, hdne, -⟩ := natDecDigitsAux_spec n n (le_refl n)
  exact ⟨d, ds.map (48 + ·), by simp [natDecBytes, natDecDigits, heq], hd10, hdne⟩

theorem natDecDigits_head_ne_zero (n : Nat) (d : Nat) (ds : List Nat)
    (heq : natDecDigitsAux n n = d :: ds) (hne : ds ≠ []) : d ≠ 0 := by
  obtain ⟨d', ds', heq', -, -, -, hdne, -⟩ := natDecDigitsAux_spec n n (le_refl n)
  rw [heq'] at heq
  obtain ⟨rfl, rfl⟩ : d' = d ∧ ds' = ds := by
    simp only [List.cons.injEq] at heq
    exact ⟨heq.1, heq.2⟩
  refine hdne ?_
  by_contra hn
  have hn0 : n = 0 := by omega
  subst hn0
  simp only [natDecDigitsAux] at heq'
  injection heq' with h1 h2
  exact hne h2.symm

theorem parseNum_decBytes_core (n : Nat) (rest : List Nat) (hstop : numStop rest = true)
    (d : Nat) (ds : List Nat) (heq : natDecDigitsAux n n = d :: ds) (hd10 : d < 10)
    (hds10 : ∀ x ∈ ds, x < 10) (hlz : ds ≠ [] → d ≠ 0) :
    takeDigits (((48 + d) :: ds.map (48 + ·)) ++ rest) = ((48 + d) :: ds.map (48 + ·), rest) ∧
    ((decide (((48 + d) :: ds.map (48 + ·)).length > 1) &&
      decide (((48 + d) :: ds.map (48 + ·)).headI = 48)) = false) ∧
    ((48 + d) :: ds.map (48 + ·)).map (· - 48) = d :: ds := by
  refine ⟨?_, ?_, ?_⟩
  · have htd := takeDigits_digits (d :: ds) rest (by
      intro x hx
      simp only [List.mem_cons] at hx
      rcases hx with hx | hx
      · omega
      · exact hds10 x hx) (numStop_no_digit rest hstop)
    simpa using htd
  · rcases ds with - | ⟨a, t⟩
    · simp
    · have hdz : d ≠ 0 := hlz (by simp)
      simp only [List.map_cons, List.length_cons, List.headI_cons]
      have : ¬ (48 + d = 48) := by omega
      simp [this]
  · have := map_sub48_add48 (d :: ds)
    simpa using this

theorem parseNum_natDecBytes (n : Nat) (rest : List Nat) (hstop : numStop rest = true) :
    parseNumBytes (natDecBytes n ++ rest) = some (Int.ofNat n, rest) := by
  obtain ⟨d, ds, heq, hd10, hds10, hval, hdne, hlen2⟩ := natDecDigitsAux_spec n n (le_refl n)
  have hcore := parseNum_decBytes_core n rest hstop d ds heq hd10 hds10
    (natDecDigits_head_ne_zero n d ds heq)
  have hbytes : natDecBytes n ++ rest = (48 + d) :: (ds.map (48 + ·) ++ rest) := by
    show (natDecDigitsAux n n).map (48 + ·) ++ rest = _
    rw [heq]
    simp
  rw [hbytes]
  unfold parseNumBytes
  simp only [if_neg (show ¬ (48 + d = 45) by omega)]
  have htd2 : takeDigits ((48 + d) :: (ds.map (48 + ·) ++ rest)) =
      ((48 + d) :: ds.map (48 + ·), rest) := by
    have := hcore.1
    simpa using this
  simp only [htd2]
  simp only [if_neg (show ¬ (((48 + d) :: ds.map (48 + ·)) = []) by simp)]
  simp only [gt_iff_lt]
  rw [if_neg (by
    intro hcontr
    have := hcore.2.1
    simp only [gt_iff_lt] at this
    rw [hcontr] at this
    simp at this)]
  rw [if_pos hstop]
  rw [hcore.2.2]
  rw [show digitsToNat 10 (d :: ds) = n from by rw [← heq]; exact hval]
  simp

theorem parseNum_intDecBytes (i : Int) (rest : List Nat) (hstop : numStop rest = true) :
    parseNumBytes (intDecBytes i ++ rest) = some (i, rest) := by
  cases i with
  | ofNat n => exact parseNum_natDecBytes n rest hstop
  | negSucc m =>
    obtain ⟨d, ds, heq, hd10, hds10, hval, hdne, hlen2⟩ :=
      natDecDigitsAux_spec (m + 1) (m + 1) (le_refl (m + 1))
    have hcore := parseNum_decBytes_core (m + 1) rest hstop d ds heq hd10 hds10
      (natDecDigits_head_ne_zero (m + 1) d ds heq)
    have hbytes : intDecBytes (Int.negSucc m) ++ rest =
        45 :: ((48 + d) :: (ds.map (48 + ·) ++ rest)) := by
      show 45 :: ((natDecDigitsAux (m + 1) (m + 1)).map (48 + ·)) ++ rest = _
      rw [heq]
      rfl
    rw [hbytes]
    unfold parseNumBytes
    have htd2 : takeDigits ((48 + d) :: (ds.map (48 + ·) ++ rest)) =
        ((48 + d) :: ds.map (48 + ·), rest) := by
      have := hcore.1
      simpa using this
    simp only [eq_self_iff_true, ite_true, htd2]
    simp only [if_neg (show ¬ (((48 + d) :: ds.map (48 + ·)) = []) by simp)]
    simp only [gt_iff_lt]
    rw [if_neg (by
      intro hcontr
      have := hcore.2.1
      simp only [gt_iff_lt] at this
      rw [hcontr] at this
      simp at this)]
    rw [if_pos hstop]
    rw [hcore.2.2]
    rw [show digitsToNat 10 (d :: ds) = m + 1 from by rw [← heq]; exact hval]
    simp [Int.negSucc_eq]

/-! ## JSON string-literal round trip (towards C2) -/

theorem escScalar_length_pos (n : Nat) : 1 ≤ (escScalar n).length := by
  by_cases h34 : n = 34
  · subst h34
    simp [escScalar]
  by_cases h92 : n = 92
  · subst h92
    simp [escScalar]
  by_cases hlt : n < 32
  · interval_cases n <;> simp [escScalar]
  unfold escScalar utf8EncodeScalar
  rw [if_neg h34, if_neg h92, if_neg (show ¬ n = 8 by omega),
    if_neg (show ¬ n = 9 by omega), if_neg (show ¬ n = 10 by omega),
    if_neg (show ¬ n = 12 by omega), if_neg (show ¬ n = 13 by omega), if_neg hlt]
  by_cases h1 : n < 0x80
  · rw [if_pos h1]
    simp
  rw [if_neg h1]
  by_cases h2 : n < 0x800
  · rw [if_pos h2]
    simp
  rw [if_neg h2]
  by_cases h3 : n < 0x10000
  · rw [if_pos h3]
    simp
  rw [if_neg h3]
  simp

theorem escString_length_ge (s : List Nat) : s.length ≤ (escString s).length := by
  induction s with
  | nil => simp [escString]
  | cons n s ih =>
    simp only [escString, List.map_cons, List.flatten_cons, List.length_append,
      List.length_cons]
    simp only [escString] at ih
    have := escScalar_length_pos n
    omega

theorem parseStrBody_cons (f : Nat) (b : Nat) (r : List Nat) :
    parseStrBody (f + 1) (b :: r) = parseStrCons (parseStrBody f) b r := rfl

theorem parseStrBody_close (f : Nat) (rest : List Nat) :
    parseStrBody (f + 1) (34 :: rest) = some ([], rest) := rfl

theorem utf8Cont_true (b : Nat) (h1 : 0x80 ≤ b) (h2 : b < 0xC0) :
    utf8Cont b = true := by
  unfold utf8Cont
  simp only [Bool.and_eq_true, decide_eq_true_eq]
  omega

theorem parseStrCons_ascii (next : List Nat → Option (List Nat × List Nat))
    (b : Nat) (tail : List Nat)
    (h1 : ¬ b = 34) (h2 : ¬ b = 92) (h3 : ¬ b < 32) (h4 : b < 0x80) :
    parseStrCons next b tail = (next tail).map fun p => (b :: p.1, p.2) := by
  unfold parseStrCons
  rw [if_neg h1, if_neg h2, if_neg h3, if_pos h4]

theorem parseStrMb2_cons (next : List Nat → Option (List Nat × List Nat))
    (b b1 : Nat) (r1 : List Nat) :
    parseStrMb2 next b (b1 :: r1) =
      if utf8Cont b1 then
        (next r1).map fun p => (((b - 0xC0) * 64 + (b1 - 0x80)) :: p.1, p.2)
      else none := rfl

theorem parseStrMb3_cons (next : List Nat → Option (List Nat × List Nat))
    (b b1 b2 : Nat) (r1 : List Nat) :
    parseStrMb3 next b (b1 :: b2 :: r1) =
      if utf8Cont b1 && utf8Cont b2 then
        (next r1).map fun p =>
          (((b - 0xE0) * 4096 + (b1 - 0x80) * 64 + (b2 - 0x80)) :: p.1, p.2)
      else none := rfl

theorem parseStrMb4_cons (next : List Nat → Option (List Nat × List Nat))
    (b b1 b2 b3 : Nat) (r1 : List Nat) :
    parseStrMb4 next b (b1 :: b2 :: b3 :: r1) =
      if utf8Cont b1 && (utf8Cont b2 && utf8Cont b3) then
        (next r1).map fun p =>
          (((b - 0xF0) * 262144 + (b1 - 0x80) * 4096 + (b2 - 0x80) * 64 +
            (b3 - 0x80)) :: p.1, p.2)
      else none := rfl

theorem parseStrCons_two (next : List Nat → Option (List Nat × List Nat))
    (b b1 : Nat) (tail : List Nat)
    (hb : 0xC2 ≤ b) (hb' : b < 0xE0) (hc : 0x80 ≤ b1) (hc' : b1 < 0xC0) :
    parseStrCons next b (b1 :: tail) =
      (next tail).map fun p => (((b - 0xC0) * 64 + (b1 - 0x80)) :: p.1, p.2) := by
  unfold parseStrCons
  rw [if_neg (show ¬ b = 34 by omega), if_neg (show ¬ b = 92 by omega),
    if_neg (show ¬ b < 32 by omega), if_neg (show ¬ b < 0x80 by omega),
    if_neg (show ¬ b < 0xC2 by omega), if_pos hb', parseStrMb2_cons,
    if_pos (utf8Cont_true b1 hc hc')]

theorem parseStrCons_three (next : List Nat → Option (List Nat × List Nat))
    (b b1 b2 : Nat) (tail : List Nat)
    (hb : 0xE0 ≤ b) (hb' : b < 0xF0) (hc : 0x80 ≤ b1) (hc' : b1 < 0xC0)
    (hd : 0x80 ≤ b2) (hd' : b2 < 0xC0) :
    parseStrCons next b (b1 :: b2 :: tail) =
      (next tail).map fun p =>
        (((b - 0xE0) * 4096 + (b1 - 0x80) * 64 + (b2 - 0x80)) :: p.1, p.2) := by
  unfold parseStrCons
  rw [if_neg (show ¬ b = 34 by omega), if_neg (show ¬ b = 92 by omega),
    if_neg (show ¬ b < 32 by omega), if_neg (show ¬ b < 0x80 by omega),
    if_neg (show ¬ b < 0xC2 by omega), if_neg (show ¬ b < 0xE0 by omega),
    if_pos hb', parseStrMb3_cons]
  rw [utf8Cont_true b1 hc hc', utf8Cont_true b2 hd hd']
  rfl

theorem parseStrCons_four (next : List Nat → Option (List Nat × List Nat))
    (b b1 b2 b3 : Nat) (tail : List Nat)
    (hb : 0xF0 ≤ b) (hb' : b < 0xF8) (hc : 0x80 ≤ b1) (hc' : b1 < 0xC0)
    (hd : 0x80 ≤ b2) (hd' : b2 < 0xC0) (he : 0x80 ≤ b3) (he' : b3 < 0xC0) :
    parseStrCons next b (b1 :: b2 :: b3 :: tail) =
      (next tail).map fun p =>
        (((b - 0xF0) * 262144 + (b1 - 0x80) * 4096 + (b2 - 0x80) * 64 +
          (b3 - 0x80)) :: p.1, p.2) := by
  unfold parseStrCons
  rw [if_neg (show ¬ b = 34 by omega), if_neg (show ¬ b = 92 by omega),
    if_neg (show ¬ b < 32 by omega), if_neg (show ¬ b < 0x80 by omega),
    if_neg (show ¬ b < 0xC2 by omega), if_neg (show ¬ b < 0xE0 by omega),
    if_neg (show ¬ b < 0xF0 by omega), if_pos hb', parseStrMb4_cons]
  rw [utf8Cont_true b1 hc hc', utf8Cont_true b2 hd hd', utf8Cont_true b3 he he']
  rfl

/-- A control scalar (below 32) is escaped by `JSON.stringify` either as a
named escape or as `\u00XX`, and `parseStrBody` decodes it back. -/
theorem parseStrBody_esc_ctl (f : Nat) (n : Nat) (L : List Nat) (hn : n < 32) :
    parseStrBody (f + 1) (escScalar n ++ L) =
      (parseStrBody f L).map fun p => (n :: p.1, p.2) := by
  interval_cases n <;> rfl

theorem parseStrBody_escString (s : List Nat) : ∀ (fuel : Nat) (rest : List Nat),
    s.all scalarOK = true → s.length < fuel →
    parseStrBody fuel (escString s ++ 34 :: rest) = some (s, rest) := by
  induction s with
  | nil =>
    intro fuel rest _ hf
    obtain ⟨f, rfl⟩ : ∃ f, fuel = f + 1 := ⟨fuel - 1, by omega⟩
    simpa [escString] using parseStrBody_close f rest
  | cons n s ih =>
    intro fuel rest hall hf
    obtain ⟨f, rfl⟩ : ∃ f, fuel = f + 1 := ⟨fuel - 1, by omega⟩
    simp only [List.all_cons, Bool.and_eq_true] at hall
    have hIH := ih f rest hall.2 (by simp only [List.length_cons] at hf; omega)
    have hesc : escString (n :: s) ++ 34 :: rest =
        escScalar n ++ (escString s ++ 34 :: rest) := by
      simp [escString, List.append_assoc]
    rw [hesc]
    by_cases hlt : n < 32
    · rw [parseStrBody_esc_ctl f n _ hlt, hIH]
      rfl
    by_cases h34 : n = 34
    · subst h34
      rw [show parseStrBody (f + 1) (escScalar 34 ++ (escString s ++ 34 :: rest)) =
        (parseStrBody f (escString s ++ 34 :: rest)).map
          (fun p => ((34 : Nat) :: p.1, p.2)) from rfl, hIH]
      rfl
    by_cases h92 : n = 92
    · subst h92
      rw [show parseStrBody (f + 1) (escScalar 92 ++ (escString s ++ 34 :: rest)) =
        (parseStrBody f (escString s ++ 34 :: rest)).map
          (fun p => ((92 : Nat) :: p.1, p.2)) from rfl, hIH]
      rfl
    by_cases hascii : n < 0x80
    · have hescn : escScalar n = [n] := by
        unfold escScalar utf8EncodeScalar
        rw [if_neg h34, if_neg h92, if_neg (show ¬ n = 8 by omega),
          if_neg (show ¬ n = 9 by omega), if_neg (show ¬ n = 10 by omega),
          if_neg (show ¬ n = 12 by omega), if_neg (show ¬ n = 13 by omega),
          if_neg hlt, if_pos hascii]
      rw [hescn, show ([n] : List Nat) ++ (escString s ++ 34 :: rest) =
        n :: (escString s ++ 34 :: rest) from rfl, parseStrBody_cons,
        parseStrCons_ascii _ _ _ h34 h92 hlt hascii, hIH]
      rfl
    by_cases htwo : n < 0x800
    · have hescn : escScalar n = [0xC0 + n / 64, 0x80 + n % 64] := by
        unfold escScalar utf8EncodeScalar
        rw [if_neg h34, if_neg h92, if_neg (show ¬ n = 8 by omega),
          if_neg (show ¬ n = 9 by omega), if_neg (show ¬ n = 10 by omega),
          if_neg (show ¬ n = 12 by omega), if_neg (show ¬ n = 13 by omega),
          if_neg hlt, if_neg hascii, if_pos htwo]
      rw [hescn, show ([0xC0 + n / 64, 0x80 + n % 64] : List Nat) ++
        (escString s ++ 34 :: rest) =
        (0xC0 + n / 64) :: (0x80 + n % 64) :: (escString s ++ 34 :: rest) from rfl,
        parseStrBody_cons,
        parseStrCons_two _ _ _ _ (by omega) (by omega) (by omega) (by omega), hIH]
      have harith : (0xC0 + n / 64 - 0xC0) * 64 + (0x80 + n % 64 - 0x80) = n := by
        omega
      rw [harith]
      rfl
    by_cases hthree : n < 0x10000
    · have hescn : escScalar n =
          [0xE0 + n / 4096, 0x80 + n / 64 % 64, 0x80 + n % 64] := by
        unfold escScalar utf8EncodeScalar
        rw [if_neg h34, if_neg h92, if_neg (show ¬ n = 8 by omega),
          if_neg (show ¬ n = 9 by omega), if_neg (show ¬ n = 10 by omega),
          if_neg (show ¬ n = 12 by omega), if_neg (show ¬ n = 13 by omega),
          if_neg hlt, if_neg hascii, if_neg htwo, if_pos hthree]
      rw [hescn, show ([0xE0 + n / 4096, 0x80 + n / 64 % 64, 0x80 + n % 64] : List Nat) ++
        (escString s ++ 34 :: rest) =
        (0xE0 + n / 4096) :: (0x80 + n / 64 % 64) :: (0x80 + n % 64) ::
          (escString s ++ 34 :: rest) from rfl,
        parseStrBody_cons,
        parseStrCons_three _ _ _ _ _ (by omega) (by omega) (by omega) (by omega)
          (by omega) (by omega), hIH]
      have harith : (0xE0 + n / 4096 - 0xE0) * 4096 + (0x80 + n / 64 % 64 - 0x80) * 64 +
          (0x80 + n % 64 - 0x80) = n := by omega
      rw [harith]
      rfl
    · have hok : scalarOK n = true := hall.1
      have hbig : n < 0x110000 := by
        unfold scalarOK at hok
        simp only [Bool.or_eq_true, decide_eq_true_eq, Bool.and_eq_true] at hok
        rcases hok with hok | hok
        · omega
        · exact hok.2
      have hescn : escScalar n =
          [0xF0 + n / 262144, 0x80 + n / 4096 % 64, 0x80 + n / 64 % 64, 0x80 + n % 64] := by
        unfold escScalar utf8EncodeScalar
        rw [if_neg h34, if_neg h92, if_neg (show ¬ n = 8 by omega),
          if_neg (show ¬ n = 9 by omega), if_neg (show ¬ n = 10 by omega),
          if_neg (show ¬ n = 12 by omega), if_neg (show ¬ n = 13 by omega),
          if_neg hlt, if_neg hascii, if_neg htwo, if_neg hthree]
      rw [hescn, show ([0xF0 + n / 262144, 0x80 + n / 4096 % 64, 0x80 + n / 64 % 64,
          0x80 + n % 64] : List Nat) ++ (escString s ++ 34 :: rest) =
        (0xF0 + n / 262144) :: (0x80 + n / 4096 % 64) :: (0x80 + n / 64 % 64) ::
          (0x80 + n % 64) :: (escString s ++ 34 :: rest) from rfl,
        parseStrBody_cons,
        parseStrCons_four _ _ _ _ _ _ (by omega) (by omega) (by omega) (by omega)
          (by omega) (by omega) (by omega) (by omega), hIH]
      have harith : (0xF0 + n / 262144 - 0xF0) * 262144 +
          (0x80 + n / 4096 % 64 - 0x80) * 4096 +
          (0x80 + n / 64 % 64 - 0x80) * 64 + (0x80 + n % 64 - 0x80) = n := by omega
      rw [harith]
      rfl

/-! ## JSON value round trip (towards C2) -/

theorem needValue_pos (v : Json) : 1 ≤ needValue v := by
  cases v <;> simp [needValue]

theorem parseValue_succ (f : Nat) (bytes : List Nat) :
    parseValue (f + 1) bytes =
      parseValTop (parseElems f) (parseFields f) (skipWs bytes) := rfl

theorem parseValTop_cons (pe : List Nat → Option (List Json × List Nat))
    (pf : List Nat → Option (List (List Nat × Json) × List Nat))
    (b : Nat) (r : List Nat) :
    parseValTop pe pf (b :: r) = parseValCons pe pf b r := rfl

theorem stringifyElems_eq_head (e : Json) (es : List Json) :
    ∃ t2, stringifyElems (e :: es) = stringifyJson e ++ t2 := by
  cases es with
  | nil => exact ⟨[], by rw [List.append_nil]; exact rfl⟩
  | cons e2 es2 => exact ⟨44 :: stringifyElems (e2 :: es2), rfl⟩

theorem stringifyFields_ex_head (k : List Nat) (v : Json)
    (fs : List (List Nat × Json)) :
    ∃ t2, stringifyFields ((k, v) :: fs) = 34 :: t2 := by
  cases fs with
  | nil => exact ⟨escString k ++ 34 :: 58 :: stringifyJson v, rfl⟩
  | cons f2 fs2 =>
    exact ⟨(escString k ++ 34 :: 58 :: stringifyJson v) ++
      44 :: stringifyFields (f2 :: fs2), rfl⟩

/-- The first serialised byte of any JSON value is never whitespace, `]`
or a closing brace. -/
theorem stringify_head (v : Json) :
    ∃ b t, stringifyJson v = b :: t ∧ isWsByte b = false ∧ ¬ b = 93 ∧ ¬ b = 125 := by
  cases v with
  | null => exact ⟨110, _, rfl, rfl, by omega, by omega⟩
  | bool tf =>
    cases tf with
    | false => exact ⟨102, _, rfl, rfl, by omega, by omega⟩
    | true => exact ⟨116, _, rfl, rfl, by omega, by omega⟩
  | num i =>
    cases i with
    | ofNat n =>
      obtain ⟨d, t, heq, hd, -⟩ := natDecBytes_head n
      refine ⟨48 + d, t, ?_, ?_, by omega, by omega⟩
      · exact heq
      · simp [isWsByte]
        omega
    | negSucc m => exact ⟨45, _, rfl, rfl, by omega, by omega⟩
  | str s => exact ⟨34, _, rfl, rfl, by omega, by omega⟩
  | arr l => exact ⟨91, _, rfl, rfl, by omega, by omega⟩
  | obj l => exact ⟨123, _, rfl, rfl, by omega, by omega⟩

mutual

theorem parseValue_stringify (v : Json) (fuel : Nat) (rest : List Nat)
    (hwf : jsonWF v = true) (hfuel : needValue v ≤ fuel)
    (hstop : numStop rest = true) :
    parseValue fuel (stringifyJson v ++ rest) = some (v, rest) := by
  obtain ⟨f, rfl⟩ : ∃ f, fuel = f + 1 :=
    ⟨fuel - 1, by have := needValue_pos v; omega⟩
  cases v with
  | null => exact rfl
  | bool tf => cases tf <;> exact rfl
  | num i =>
    cases i with
    | ofNat n =>
      obtain ⟨d, t, heq, hd, -⟩ := natDecBytes_head n
      rw [show stringifyJson (.num (Int.ofNat n)) = natDecBytes n from rfl, heq,
        List.cons_append, parseValue_succ,
        skipWs_cons_nonws _ _ (by simp [isWsByte]; omega), parseValTop_cons]
      unfold parseValCons
      rw [if_neg (show ¬ 48 + d = 110 by omega), if_neg (show ¬ 48 + d = 116 by omega),
        if_neg (show ¬ 48 + d = 102 by omega), if_neg (show ¬ 48 + d = 34 by omega)]
      rw [if_pos (show (decide (48 + d = 45) || isDigitByte (48 + d)) = true by
        rw [isDigitByte_add48 d hd]; simp)]
      rw [← List.cons_append, ← heq, parseNum_natDecBytes n rest hstop]
      rfl
    | negSucc m =>
      rw [show stringifyJson (.num (Int.negSucc m)) ++ rest =
        45 :: (natDecBytes (m + 1) ++ rest) from by
          simp [stringifyJson, intDecBytes]]
      rw [show parseValue (f + 1) (45 :: (natDecBytes (m + 1) ++ rest)) =
        (parseNumBytes (45 :: (natDecBytes (m + 1) ++ rest))).map
          (fun p => (Json.num p.1, p.2)) from rfl]
      rw [show (45 : Nat) :: (natDecBytes (m + 1) ++ rest) =
        intDecBytes (Int.negSucc m) ++ rest from by simp [intDecBytes]]
      rw [parseNum_intDecBytes (Int.negSucc m) rest hstop]
      rfl
  | str s =>
    have hk : s.all scalarOK = true := by simpa [jsonWF] using hwf
    rw [show stringifyJson (.str s) ++ rest = 34 :: (escString s ++ 34 :: rest) from by
      simp [stringifyJson]]
    rw [show parseValue (f + 1) (34 :: (escString s ++ 34 :: rest)) =
      (parseStrBody ((escString s ++ 34 :: rest).length + 1)
        (escString s ++ 34 :: rest)).map (fun p => (Json.str p.1, p.2)) from rfl]
    rw [parseStrBody_escString s _ rest hk (by
      have h := escString_length_ge s
      simp only [List.length_append, List.length_cons]
      omega)]
    rfl
  | arr l =>
    cases l with
    | nil => exact rfl
    | cons e es =>
      have hfe : needElems (e :: es) ≤ f := by
        simp only [needValue] at hfuel
        omega
      have hwfe : jsonArrWF (e :: es) = true := by simpa [jsonWF] using hwf
      rw [show stringifyJson (.arr (e :: es)) ++ rest =
        91 :: (stringifyElems (e :: es) ++ 93 :: rest) from by
          simp [stringifyJson, List.append_assoc]]
      rw [show parseValue (f + 1) (91 :: (stringifyElems (e :: es) ++ 93 :: rest)) =
        parseValArr (parseElems f) (skipWs (stringifyElems (e :: es) ++ 93 :: rest))
          from rfl]
      obtain ⟨bh, th, hhead, hws, h93, -⟩ := stringify_head e
      obtain ⟨t2, ht2⟩ := stringifyElems_eq_head e es
      have hconsform : stringifyElems (e :: es) ++ 93 :: rest =
          bh :: (th ++ (t2 ++ 93 :: rest)) := by
        rw [ht2, hhead]
        simp [List.append_assoc]
      rw [hconsform, skipWs_cons_nonws _ _ hws]
      rw [show parseValArr (parseElems f) (bh :: (th ++ (t2 ++ 93 :: rest))) =
        if bh = 93 then some (.arr [], th ++ (t2 ++ 93 :: rest))
        else (parseElems f (bh :: (th ++ (t2 ++ 93 :: rest)))).map
          fun p => (.arr p.1, p.2) from rfl]
      rw [if_neg h93, ← hconsform,
        parseElems_stringify e es f rest hwfe hfe]
      rfl
  | obj l =>
    cases l with
    | nil => exact rfl
    | cons kv fs =>
      obtain ⟨k, v⟩ := kv
      have hff : needFields ((k, v) :: fs) ≤ f := by
        simp only [needValue] at hfuel
        omega
      have hwff : jsonObjWF ((k, v) :: fs) = true := by
        simp only [jsonWF, Bool.and_eq_true] at hwf
        exact hwf.2
      rw [show stringifyJson (.obj ((k, v) :: fs)) ++ rest =
        123 :: (stringifyFields ((k, v) :: fs) ++ 125 :: rest) from by
          simp [stringifyJson, List.append_assoc]]
      rw [show parseValue (f + 1)
          (123 :: (stringifyFields ((k, v) :: fs) ++ 125 :: rest)) =
        parseValObj (parseFields f)
          (skipWs (stringifyFields ((k, v) :: fs) ++ 125 :: rest)) from rfl]
      obtain ⟨t2, ht2⟩ := stringifyFields_ex_head k v fs
      have hconsform : stringifyFields ((k, v) :: fs) ++ 125 :: rest =
          34 :: (t2 ++ 125 :: rest) := by
        rw [ht2]
        simp
      rw [hconsform, skipWs_cons_nonws 34 _ (by rfl)]
      rw [show parseValObj (parseFields f) ((34 : Nat) :: (t2 ++ 125 :: rest)) =
        if (34 : Nat) = 125 then some (.obj [], t2 ++ 125 :: rest)
        else (parseFields f ((34 : Nat) :: (t2 ++ 125 :: rest))).map
          fun p => (.obj p.1, p.2) from rfl]
      rw [if_neg (by omega), ← hconsform,
        parseFields_stringify k v fs f rest hwff hff]
      rfl
termination_by fuel
decreasing_by all_goals omega

theorem parseElems_stringify (e : Json) (es : List Json) (fuel : Nat)
    (rest : List Nat) (hwf : jsonArrWF (e :: es) = true)
    (hfuel : needElems (e :: es) ≤ fuel) :
    parseElems fuel (stringifyElems (e :: es) ++ 93 :: rest) = some (e :: es, rest) := by
  have hmax1 := Nat.le_max_left (needValue e) (needElems es)
  have hmax2 := Nat.le_max_right (needValue e) (needElems es)
  simp only [needElems] at hfuel
  obtain ⟨f, rfl⟩ : ∃ f, fuel = f + 1 := ⟨fuel - 1, by omega⟩
  simp only [jsonArrWF, Bool.and_eq_true] at hwf
  cases es with
  | nil =>
    rw [show stringifyElems [e] = stringifyJson e from rfl]
    have hv := parseValue_stringify e f (93 :: rest) hwf.1 (by omega) rfl
    rw [show parseElems (f + 1) (stringifyJson e ++ 93 :: rest) =
      (match parseValue f (stringifyJson e ++ 93 :: rest) with
       | some (v, r2) => parseElemsTail (parseElems f) v (skipWs r2)
       | none => none) from rfl, hv]
    rfl
  | cons e2 es2 =>
    have hmax3 := Nat.le_max_left (needValue e2) (needElems es2)
    have hmax4 := Nat.le_max_right (needValue e2) (needElems es2)
    simp only [needElems] at hmax2
    rw [show stringifyElems (e :: e2 :: es2) ++ 93 :: rest =
      stringifyJson e ++ (44 :: (stringifyElems (e2 :: es2) ++ 93 :: rest)) from by
        rw [show stringifyElems (e :: e2 :: es2) =
          stringifyJson e ++ 44 :: stringifyElems (e2 :: es2) from rfl]
        simp [List.append_assoc]]
    have hv := parseValue_stringify e f
      (44 :: (stringifyElems (e2 :: es2) ++ 93 :: rest)) hwf.1 (by omega) rfl
    have h1 : parseElems (f + 1)
        (stringifyJson e ++ (44 :: (stringifyElems (e2 :: es2) ++ 93 :: rest))) =
        (parseElems f (stringifyElems (e2 :: es2) ++ 93 :: rest)).map
          (fun p => (e :: p.1, p.2)) := by
      rw [show parseElems (f + 1)
          (stringifyJson e ++ (44 :: (stringifyElems (e2 :: es2) ++ 93 :: rest))) =
        (match parseValue f
            (stringifyJson e ++ (44 :: (stringifyElems (e2 :: es2) ++ 93 :: rest))) with
         | some (v, r2) => parseElemsTail (parseElems f) v (skipWs r2)
         | none => none) from rfl, hv]
      rfl
    rw [h1]
    rw [parseElems_stringify e2 es2 f rest hwf.2 (by omega)]
    rfl
termination_by fuel
decreasing_by all_goals omega

theorem parseFields_stringify (k : List Nat) (v : Json)
    (fs : List (List Nat × Json)) (fuel : Nat) (rest : List Nat)
    (hwf : jsonObjWF ((k, v) :: fs) = true)
    (hfuel : needFields ((k, v) :: fs) ≤ fuel) :
    parseFields fuel (stringifyFields ((k, v) :: fs) ++ 125 :: rest) =
      some ((k, v) :: fs, rest) := by
  have hmax1 := Nat.le_max_left (needValue v) (needFields fs)
  have hmax2 := Nat.le_max_right (needValue v) (needFields fs)
  simp only [needFields] at hfuel
  obtain ⟨f, rfl⟩ : ∃ f, fuel = f + 1 := ⟨fuel - 1, by omega⟩
  simp only [jsonObjWF, Bool.and_eq_true] at hwf
  have hklen : ∀ Y : List Nat, k.length < (escString k ++ 34 :: Y).length + 1 := by
    intro Y
    have h := escString_length_ge k
    simp only [List.length_append, List.length_cons]
    omega
  cases fs with
  | nil =>
    rw [show stringifyFields [(k, v)] ++ 125 :: rest =
      34 :: (escString k ++ 34 :: (58 :: (stringifyJson v ++ 125 :: rest))) from by
        rw [show stringifyFields [(k, v)] =
          (34 :: escString k) ++ 34 :: 58 :: stringifyJson v from rfl]
        simp [List.append_assoc]]
    have hstr := parseStrBody_escString k
      ((escString k ++ 34 :: (58 :: (stringifyJson v ++ 125 :: rest))).length + 1)
      (58 :: (stringifyJson v ++ 125 :: rest)) hwf.1.1 (hklen _)
    have h1 : parseFields (f + 1)
        (34 :: (escString k ++ 34 :: (58 :: (stringifyJson v ++ 125 :: rest)))) =
        parseFieldsColon (parseValue f) (parseFields f) k
          (skipWs (58 :: (stringifyJson v ++ 125 :: rest))) := by
      rw [show parseFields (f + 1)
          (34 :: (escString k ++ 34 :: (58 :: (stringifyJson v ++ 125 :: rest)))) =
        (match parseStrBody
            ((escString k ++ 34 :: (58 :: (stringifyJson v ++ 125 :: rest))).length + 1)
            (escString k ++ 34 :: (58 :: (stringifyJson v ++ 125 :: rest))) with
         | some (k2, r1) => parseFieldsColon (parseValue f) (parseFields f) k2 (skipWs r1)
         | none => none) from rfl, hstr]
    rw [h1]
    have hv := parseValue_stringify v f (125 :: rest) hwf.1.2 (by omega) rfl
    have h2 : parseFieldsColon (parseValue f) (parseFields f) k
        (skipWs (58 :: (stringifyJson v ++ 125 :: rest))) =
        parseFieldsTail (parseFields f) k v (skipWs (125 :: rest)) := by
      rw [show parseFieldsColon (parseValue f) (parseFields f) k
          (skipWs (58 :: (stringifyJson v ++ 125 :: rest))) =
        (match parseValue f (stringifyJson v ++ 125 :: rest) with
         | some (v2, r3) => parseFieldsTail (parseFields f) k v2 (skipWs r3)
         | none => none) from rfl, hv]
    rw [h2]
    rfl
  | cons kv2 fs2 =>
    obtain ⟨k2, v2⟩ := kv2
    have hmax3 := Nat.le_max_left (needValue v2) (needFields fs2)
    have hmax4 := Nat.le_max_right (needValue v2) (needFields fs2)
    simp only [needFields] at hmax2
    rw [show stringifyFields ((k, v) :: (k2, v2) :: fs2) ++ 125 :: rest =
      34 :: (escString k ++ 34 :: (58 :: (stringifyJson v ++
        44 :: (stringifyFields ((k2, v2) :: fs2) ++ 125 :: rest)))) from by
        rw [show stringifyFields ((k, v) :: (k2, v2) :: fs2) =
          ((34 :: escString k) ++ 34 :: 58 :: stringifyJson v) ++
            44 :: stringifyFields ((k2, v2) :: fs2) from rfl]
        simp [List.append_assoc]]
    have hstr := parseStrBody_escString k
      ((escString k ++ 34 :: (58 :: (stringifyJson v ++
        44 :: (stringifyFields ((k2, v2) :: fs2) ++ 125 :: rest)))).length + 1)
      (58 :: (stringifyJson v ++ 44 :: (stringifyFields ((k2, v2) :: fs2) ++
        125 :: rest))) hwf.1.1 (hklen _)
    have h1 : parseFields (f + 1)
        (34 :: (escString k ++ 34 :: (58 :: (stringifyJson v ++
          44 :: (stringifyFields ((k2, v2) :: fs2) ++ 125 :: rest))))) =
        parseFieldsColon (parseValue f) (parseFields f) k
          (skipWs (58 :: (stringifyJson v ++
            44 :: (stringifyFields ((k2, v2) :: fs2) ++ 125 :: rest)))) := by
      rw [show parseFields (f + 1)
          (34 :: (escString k ++ 34 :: (58 :: (stringifyJson v ++
            44 :: (stringifyFields ((k2, v2) :: fs2) ++ 125 :: rest))))) =
        (match parseStrBody
            ((escString k ++ 34 :: (58 :: (stringifyJson v ++
              44 :: (stringifyFields ((k2, v2) :: fs2) ++ 125 :: rest)))).length + 1)
            (escString k ++ 34 :: (58 :: (stringifyJson v ++
              44 :: (stringifyFields ((k2, v2) :: fs2) ++ 125 :: rest)))) with
         | some (kk, r1) => parseFieldsColon (parseValue f) (parseFields f) kk (skipWs r1)
         | none => none) from rfl, hstr]
    rw [h1]
    have hv := parseValue_stringify v f
      (44 :: (stringifyFields ((k2, v2) :: fs2) ++ 125 :: rest)) hwf.1.2 (by omega) rfl
    have h2 : parseFieldsColon (parseValue f) (parseFields f) k
        (skipWs (58 :: (stringifyJson v ++
          44 :: (stringifyFields ((k2, v2) :: fs2) ++ 125 :: rest)))) =
        (parseFields f (stringifyFields ((k2, v2) :: fs2) ++ 125 :: rest)).map
          (fun p => ((k, v) :: p.1, p.2)) := by
      rw [show parseFieldsColon (parseValue f) (parseFields f) k
          (skipWs (58 :: (stringifyJson v ++
            44 :: (stringifyFields ((k2, v2) :: fs2) ++ 125 :: rest)))) =
        (match parseValue f (stringifyJson v ++
            44 :: (stringifyFields ((k2, v2) :: fs2) ++ 125 :: rest)) with
         | some (vv, r3) => parseFieldsTail (parseFields f) k vv (skipWs r3)
         | none => none) from rfl, hv]
      rfl
    rw [h2]
    rw [parseFields_stringify k2 v2 fs2 f rest hwf.2 (by omega)]
    rfl
termination_by fuel
decreasing_by all_goals omega

end

/-- Feeding chunks one at a time from a quiescent state is feeding their
concatenation. -/
theorem feedAll_flatten (s : FState) (hq : drain s = ([], s)) (chunks : List (List Nat)) :
    feedAll s chunks = drain (s.push chunks.flatten) := by
  induction chunks generalizing s with
  | nil =>
    simp only [feedAll, List.flatten_nil, FState.push_nil, hq]
  | cons c cs ih =>
    have hresid := drain_fix (s.push c)
    have hIH := ih (drain (s.push c)).2 hresid
    simp only [feedAll, feedChunk, List.flatten_cons, FState.push_append]
    rw [drain_push (s.push c) cs.flatten, hIH]

/-! ## Fuel bound: `jsonParse` always has enough fuel for a serialised value -/

theorem needBound_aux (n : Nat) :
    (∀ v : Json, needValue v ≤ n → needValue v ≤ (stringifyJson v).length + 1) ∧
    (∀ es : List Json, needElems es ≤ n → needElems es ≤ (stringifyElems es).length + 2) ∧
    (∀ fs : List (List Nat × Json), needFields fs ≤ n →
      needFields fs ≤ (stringifyFields fs).length + 2) := by
  induction n with
  | zero =>
    refine ⟨fun v hv => absurd hv (by have := needValue_pos v; omega),
      fun es hes => ?_, fun fs hfs => ?_⟩
    · cases es with
      | nil =>
        have h : needElems ([] : List Json) = 0 := rfl
        omega
      | cons e es2 =>
        have h : needElems (e :: es2) = 1 + max (needValue e) (needElems es2) := rfl
        omega
    · cases fs with
      | nil =>
        have h : needFields ([] : List (List Nat × Json)) = 0 := rfl
        omega
      | cons kv fs2 =>
        obtain ⟨k, v⟩ := kv
        have h : needFields ((k, v) :: fs2) = 1 + max (needValue v) (needFields fs2) := rfl
        omega
  | succ n ih =>
    obtain ⟨ihv, ihe, ihf⟩ := ih
    refine ⟨fun v hv => ?_, fun es hes => ?_, fun fs hfs => ?_⟩
    · cases v with
      | null =>
        have h1 : needValue Json.null = 1 := rfl
        omega
      | bool b =>
        have h1 : needValue (Json.bool b) = 1 := rfl
        omega
      | num i =>
        have h1 : needValue (Json.num i) = 1 := rfl
        omega
      | str s =>
        have h1 : needValue (Json.str s) = 1 := rfl
        omega
      | arr l =>
        have h1 : needValue (Json.arr l) = 1 + needElems l := rfl
        have h2 : stringifyJson (Json.arr l) = 91 :: stringifyElems l ++ [93] := rfl
        have h3 := ihe l (by omega)
        rw [h1, h2]
        simp only [List.length_cons, List.length_append, List.length_nil]
        omega
      | obj l =>
        have h1 : needValue (Json.obj l) = 1 + needFields l := rfl
        have h2 : stringifyJson (Json.obj l) = 123 :: stringifyFields l ++ [125] := rfl
        have h3 := ihf l (by omega)
        rw [h1, h2]
        simp only [List.length_cons, List.length_append, List.length_nil]
        omega
    · cases es with
      | nil =>
        have h : needElems ([] : List Json) = 0 := rfl
        omega
      | cons e es2 =>
        cases es2 with
        | nil =>
          have h1 : needElems [e] = 1 + max (needValue e) (needElems ([] : List Json)) := rfl
          have h0 : needElems ([] : List Json) = 0 := rfl
          have h2 : stringifyElems [e] = stringifyJson e := rfl
          have hA := Nat.le_max_left (needValue e) (needElems ([] : List Json))
          have he := ihv e (by omega)
          rw [h1, h2]
          rcases max_choice (needValue e) (needElems ([] : List Json)) with hm | hm <;> omega
        | cons e3 es3 =>
          have h1 : needElems (e :: e3 :: es3) =
              1 + max (needValue e) (needElems (e3 :: es3)) := rfl
          have h2 : stringifyElems (e :: e3 :: es3) =
              stringifyJson e ++ 44 :: stringifyElems (e3 :: es3) := rfl
          have hA := Nat.le_max_left (needValue e) (needElems (e3 :: es3))
          have hB := Nat.le_max_right (needValue e) (needElems (e3 :: es3))
          have he := ihv e (by omega)
          have hrest := ihe (e3 :: es3) (by omega)
          rw [h1, h2]
          simp only [List.length_append, List.length_cons]
          rcases max_choice (needValue e) (needElems (e3 :: es3)) with hm | hm <;> omega
    · cases fs with
      | nil =>
        have h : needFields ([] : List (List Nat × Json)) = 0 := rfl
        omega
      | cons kv fs2 =>
        obtain ⟨k, v⟩ := kv
        cases fs2 with
        | nil =>
          have h1 : needFields [(k, v)] =
              1 + max (needValue v) (needFields ([] : List (List Nat × Json))) := rfl
          have h0 : needFields ([] : List (List Nat × Json)) = 0 := rfl
          have h2 : stringifyFields [(k, v)] =
              (34 :: escString k) ++ 34 :: 58 :: stringifyJson v := rfl
          have hA := Nat.le_max_left (needValue v) (needFields ([] : List (List Nat × Json)))
          have hv2 := ihv v (by omega)
          rw [h1, h2]
          simp only [List.length_append, List.length_cons]
          rcases max_choice (needValue v) (needFields ([] : List (List Nat × Json))) with
            hm | hm <;> omega
        | cons kv2 fs3 =>
          have h1 : needFields ((k, v) :: kv2 :: fs3) =
              1 + max (needValue v) (needFields (kv2 :: fs3)) := rfl
          have h2 : stringifyFields ((k, v) :: kv2 :: fs3) =
              ((34 :: escString k) ++ 34 :: 58 :: stringifyJson v) ++
                44 :: stringifyFields (kv2 :: fs3) := rfl
          have hA := Nat.le_max_left (needValue v) (needFields (kv2 :: fs3))
          have hB := Nat.le_max_right (needValue v) (needFields (kv2 :: fs3))
          have hv2 := ihv v (by omega)
          have hrest := ihf (kv2 :: fs3) (by omega)
          rw [h1, h2]
          simp only [List.length_append, List.length_cons]
          rcases max_choice (needValue v) (needFields (kv2 :: fs3)) with hm | hm <;> omega

theorem needValue_le (v : Json) : needValue v ≤ (stringifyJson v).length + 1 :=
  (needBound_aux (needValue v)).1 v (le_refl _)

/-- `JSON.parse` inverts `JSON.stringify` on every well-formed value,
applied to the exact body bytes the connection sends. -/
theorem jsonParse_messageBody (v : Json) (hwf : jsonWF v = true) :
    jsonParse (messageBody v) = some v := by
  have hb := needValue_le v
  have hlen : needValue v ≤ (stringifyJson v ++ [10]).length + 1 := by
    simp only [List.length_append, List.length_cons, List.length_nil]
    omega
  have hv := parseValue_stringify v ((stringifyJson v ++ [10]).length + 1) [10] hwf hlen rfl
  rw [show jsonParse (messageBody v) = jsonParse (stringifyJson v ++ [10]) from rfl]
  unfold jsonParse
  rw [hv]
  rfl

/-- **C2**: for every well-formed JSON value whose framed body fits the
8-hex-digit length field, serialising and framing it (8-character
zero-padded lowercase hex length of the body including its trailing
newline, then a newline, then the body) and feeding the packet to a fresh
`addMessageListener` parser under any chunking whatsoever delivers exactly
the one body — consuming every byte, the parser back in its initial state
— and `JSON.parse` of that body yields exactly `v`. -/
theorem C2_frame_parse_roundtrip (v : Json) (chunks : List (List Nat))
    (hwf : jsonWF v = true) (hsize : (messageBody v).length < 16 ^ 8)
    (hchunks : chunks.flatten = sendMessagePacket v) :
    feedAll initFState chunks = ([messageBody v], initFState) ∧
    jsonParse (messageBody v) = some v := by
  refine ⟨?_, jsonParse_messageBody v hwf⟩
  have h0 : drain initFState = ([], initFState) := drain_len_short [] (by simp)
  rw [feedAll_flatten initFState h0 chunks, hchunks]
  have hp : initFState.push (sendMessagePacket v) =
      FState.len (padHex8 (messageBody v).length ++ 10 :: messageBody v) := by
    simp [initFState, FState.push, sendMessagePacket]
  rw [hp, drain_packet (messageBody v) hsize]
  rfl

/-- **C2 witness**: the concrete packet for `null` — `"00000005\n" ++
"null\n"` — fed one byte at a time. -/
theorem C2_frame_parse_roundtrip_witness :
    jsonWF Json.null = true ∧
    (messageBody Json.null).length < 16 ^ 8 ∧
    ([[48], [48], [48], [48], [48], [48], [48], [53], [10], [110], [117],
      [108], [108], [10]] : List (List Nat)).flatten = sendMessagePacket Json.null ∧
    (feedAll initFState [[48], [48], [48], [48], [48], [48], [48], [53], [10],
      [110], [117], [108], [108], [10]] = ([messageBody Json.null], initFState) ∧
     jsonParse (messageBody Json.null) = some Json.null) :=
  ⟨rfl, by decide, rfl,
    C2_frame_parse_roundtrip Json.null _ rfl (by decide) rfl⟩
